import Mathlib

/-!  Verification of the httprunner template-resolution engine and session
orchestrator.  The Python sources (httprunner/parser.py, httprunner/runner.py)
are shallowly embedded: Python values become the inductive family
PyVal/PyList/PyPairs, Python exceptions become the error type PyErr, strings
are lists of characters, and the mutually recursive resolution functions are
driven by an explicit fuel parameter (constructor PyErr.outOfFuel reports an
exhausted budget, which never happens at sufficient fuel for source code paths
that terminate). -/

mutual
/-- Embedded Python values (the value universe the engine manipulates). -/
inductive PyVal where
  | vNone : PyVal
  | vBool : Bool → PyVal
  | vInt : Int → PyVal
  | vStr : List Char → PyVal
  | vList : PyList → PyVal
  | vDict : PyPairs → PyVal

/-- A Python list of values. -/
inductive PyList where
  | nil : PyList
  | cons : PyVal → PyList → PyList

/-- A Python dict as an insertion-ordered key/value pair sequence. -/
inductive PyPairs where
  | nil : PyPairs
  | cons : PyVal → PyVal → PyPairs → PyPairs
end

/-- Embedded Python exceptions raised by the engine.  httprunner.exceptions
is not part of the sources; the error taxonomy is modelled from the spec
section 7: VariableNotFound, FunctionNotFound, ParamsError, ValidationFailure,
plus the host-language ValueError / TypeError / KeyError that can escape, and
outOfFuel for an exhausted recursion budget of the embedding. -/
inductive PyErr where
  | variableNotFound : List (List Char) → PyErr
  | functionNotFound : List Char → PyErr
  | paramsError : PyErr
  | validationFailure : PyErr
  | valueError : PyErr
  | typeError : PyErr
  | keyError : PyErr
  | outOfFuel : PyErr
  deriving DecidableEq, Repr

/-- Variables mapping: an insertion-ordered dict with string keys. -/
abbrev VarsMap : Type := List (List Char × PyVal)

/-- A Python callable taking positional args and keyword args. -/
abbrev PyFunc : Type := List PyVal → List (PyVal × PyVal) → Except PyErr PyVal

/-- Functions mapping (project-defined functions, debugtalk.py). -/
abbrev FuncsMap : Type := List (List Char × PyFunc)

/-- Conversion from a Lean list of values to a Python list. -/
def listToPyList : List PyVal → PyList
  | [] => .nil
  | x :: xs => .cons x (listToPyList xs)

/-- Conversion from a Python list to a Lean list of values. -/
def pyListToList : PyList → List PyVal
  | .nil => []
  | .cons x xs => x :: pyListToList xs

/-- Conversion from Python dict pairs to a Lean list of pairs. -/
def pyPairsToList : PyPairs → List (PyVal × PyVal)
  | .nil => []
  | .cons k v rest => (k, v) :: pyPairsToList rest

/-- Build Python dict pairs from string-keyed entries. -/
def strPairsToPyPairs : List (List Char × PyVal) → PyPairs
  | [] => .nil
  | (k, v) :: rest => .cons (.vStr k) v (strPairsToPyPairs rest)

/-- name-start character class of the variable regex: [a-zA-Z_]. -/
def isNameStart (c : Char) : Bool := c.isAlpha || c = '_'

/-- word character class \w (ASCII fragment): [a-zA-Z0-9_]. -/
def isWordChar (c : Char) : Bool := c.isAlphanum || c = '_'

/-- characters admitted inside function-call parentheses by
function_regex_compile (ASCII fragment of the class). -/
def isParamChar (c : Char) : Bool :=
  c = '$' || isWordChar c || c = '.' || c = '-' || c = '/' ||
  c = ' ' || c = '\t' || c = '\n' || c = '\r' || c = '=' || c = ','

/-- lookup in an insertion-ordered dict with string keys. -/
def lookupVar : VarsMap → List Char → Option PyVal
  | [], _ => none
  | (k, v) :: rest, name => if k = name then some v else lookupVar rest name

/-- key-membership test for a string-keyed dict. -/
def hasKey (m : VarsMap) (k : List Char) : Bool := (lookupVar m k).isSome

/-- Python dict assignment d[k] = v for a string-keyed dict: replace in
place when the key exists, append otherwise. -/
def assocAssign : VarsMap → List Char → PyVal → VarsMap
  | [], k, v => [(k, v)]
  | (k0, v0) :: rest, k, v =>
    if k0 = k then (k0, v) :: rest else (k0, v0) :: assocAssign rest k v

/-- Python dict.update(m): assign every pair of m into d, in order. -/
def dictUpdateAll (d : VarsMap) : VarsMap → VarsMap
  | [] => d
  | (k, v) :: rest => dictUpdateAll (assocAssign d k v) rest

/-- lookup in a functions mapping. -/
def lookupFunc : FuncsMap → List Char → Option PyFunc
  | [], _ => none
  | (k, v) :: rest, name => if k = name then some v else lookupFunc rest name

/-- Equality of hashable (dict-key) Python values; container values are
never dict keys (Python raises TypeError on such an assignment). -/
def pyScalarEq : PyVal → PyVal → Bool
  | .vNone, .vNone => true
  | .vBool a, .vBool b => a = b
  | .vInt a, .vInt b => a = b
  | .vStr a, .vStr b => a = b
  | _, _ => false

/-- Is the value a container (unusable as a Python dict key)? -/
def isContainer : PyVal → Bool
  | .vList _ => true
  | .vDict _ => true
  | _ => false

/-- Python dict assignment for dicts with arbitrary hashable keys. -/
def pyDictAssign : PyPairs → PyVal → PyVal → PyPairs
  | .nil, k, v => .cons k v .nil
  | .cons k0 v0 rest, k, v =>
    if pyScalarEq k0 k then .cons k0 v rest
    else .cons k0 v0 (pyDictAssign rest k v)

/-- lookup in a Python dict with arbitrary hashable keys. -/
def pyDictGet : PyPairs → PyVal → Option PyVal
  | .nil, _ => none
  | .cons k0 v0 rest, k => if pyScalarEq k0 k then some v0 else pyDictGet rest k

/-- repr quote character for strings. -/
def reprQuote : Char := Char.ofNat 39

mutual
/-- Host-language repr of a value (Python repr; string escaping inside
quotes is not modelled, no claim depends on it). -/
def pyRepr : PyVal → List Char
  | .vNone => "None".data
  | .vBool b => if b then "True".data else "False".data
  | .vInt n => (toString n).data
  | .vStr s => reprQuote :: s ++ [reprQuote]
  | .vList l => '[' :: pyReprList l ++ [']']
  | .vDict d => '\x7b' :: pyReprPairs d ++ ['\x7d']
termination_by structural v => v

/-- repr of the comma-separated elements of a Python list. -/
def pyReprList : PyList → List Char
  | .nil => []
  | .cons x .nil => pyRepr x
  | .cons x xs => pyRepr x ++ ',' :: ' ' :: pyReprList xs
termination_by structural l => l

/-- repr of the comma-separated key: value entries of a Python dict. -/
def pyReprPairs : PyPairs → List Char
  | .nil => []
  | .cons k v .nil => pyRepr k ++ ':' :: ' ' :: pyRepr v
  | .cons k v rest => pyRepr k ++ ':' :: ' ' :: pyRepr v ++ ',' :: ' ' :: pyReprPairs rest
termination_by structural p => p
end

/-- Host-language str() of a value: identity on strings, repr otherwise. -/
def pyStr : PyVal → List Char
  | .vStr s => s
  | v => pyRepr v

/-- Decimal digits to a natural number. -/
def digitsToNat (ds : List Char) : Nat :=
  ds.foldl (fun n c => 10 * n + (c.toNat - 48)) 0

/-- A valid Python decimal integer literal: digits only, and no leading
zero unless the literal is a single digit (the host literal parser rejects
forms such as 007 with a SyntaxError). -/
def decimalDigits (ds : List Char) : Bool :=
  !ds.isEmpty && ds.all Char.isDigit && (ds.length = 1 || ds.headD ' ' ≠ '0')

/-- parser.parse_string_value: parse a string to a Python literal when
possible, otherwise return the string unchanged.  ast.literal_eval is host
standard library; it is modelled here for the literal kinds reachable through
the function-parameter character class: optionally signed decimal integer
literals and the names True / False / None; anything else (including float
literals, which the value universe does not model, and leading-zero numerals,
which the host literal parser rejects) is returned unchanged, as the source
does on ValueError / SyntaxError. -/
def parse_string_value (s : List Char) : PyVal :=
  if s = "True".data then .vBool true
  else if s = "False".data then .vBool false
  else if s = "None".data then .vNone
  else
    match s with
    | '-' :: ds =>
      if decimalDigits ds then .vInt (-(digitsToNat ds : Int))
      else .vStr s
    | ds =>
      if decimalDigits ds then .vInt (digitsToNat ds)
      else .vStr s

/-- Anchored match of variable_regex_compile at the head of s: branch 1 is
a name wrapped in dollar-brace, branch 2 is a bare dollar-name; the name is
the maximal run of word characters (regex backtracking cannot shorten it,
because a word character can never match the following brace).  Returns the
name and the rest of the string. -/
def matchCloseBrace (c : Char) (nameTail rest : List Char) :
    Option (List Char × List Char) :=
  match rest with
  | d :: r => if d = '\x7d' then some (c :: nameTail, r) else none
  | [] => none

/-- The brace branch of the variable regex after the opening dollar-brace:
a name-start character, the maximal word-character run, then the closing
brace. -/
def matchBraceName : List Char → Option (List Char × List Char)
  | c :: cs2 =>
    if isNameStart c then
      matchCloseBrace c (cs2.takeWhile isWordChar) (cs2.dropWhile isWordChar)
    else none
  | [] => none

/-- Anchored match of variable_regex_compile at the head of s: branch 1 is
a name wrapped in dollar-brace, branch 2 is a bare dollar-name; the name is
the maximal run of word characters (regex backtracking cannot shorten it,
because a word character can never match the following brace).  Returns the
name and the rest of the string. -/
def matchVariable : List Char → Option (List Char × List Char)
  | a :: b :: cs =>
    if a = '$' then
      if b = '\x7b' then matchBraceName cs
      else if isNameStart b then
        some (b :: cs.takeWhile isWordChar, cs.dropWhile isWordChar)
      else none
    else none
  | _ => none

/-- Anchored match of function_regex_compile at the head of s: a name then a
parenthesised run of parameter-class characters, all wrapped in dollar-brace
(regex backtracking cannot shorten the two maximal runs, because a word
character can never match the following parenthesis and a parameter-class
character can never match the closing parenthesis).  Returns the function
name, the raw parameter string and the rest. -/
def matchFuncClose (fname params : List Char) :
    List Char → Option (List Char × List Char × List Char)
  | e :: f :: r =>
    if e = ')' ∧ f = '\x7d' then some (fname, params, r) else none
  | _ => none

/-- The parameter region of the function regex after the name: an opening
parenthesis, the maximal parameter-class run, then the closing parenthesis
and brace. -/
def matchFuncParams (fname : List Char) : List Char → Option (List Char × List Char × List Char)
  | d :: ps =>
    if d = '(' then
      matchFuncClose fname (ps.takeWhile isParamChar) (ps.dropWhile isParamChar)
    else none
  | [] => none

/-- The name region of the function regex after the opening dollar-brace. -/
def matchFuncName : List Char → Option (List Char × List Char × List Char)
  | c :: cs2 =>
    if isNameStart c then
      matchFuncParams (c :: cs2.takeWhile isWordChar) (cs2.dropWhile isWordChar)
    else none
  | [] => none

def matchFunction : List Char → Option (List Char × List Char × List Char)
  | a :: b :: cs =>
    if a = '$' ∧ b = '\x7b' then matchFuncName cs
    else none
  | _ => none

/-- Anchored match of dolloar_regex_compile (the dollar-dollar escape). -/
def matchEscape : List Char → Option (List Char)
  | a :: b :: rs => if a = '$' ∧ b = '$' then some rs else none
  | _ => none

/-- The literal text a bare variable reference consists of. -/
def varPlainForm (name : List Char) : List Char := '$' :: name

/-- The literal text a braced variable reference consists of. -/
def varBraceForm (name : List Char) : List Char :=
  '$' :: '\x7b' :: (name ++ ['\x7d'])

/-- The literal text a function call consists of (func_raw_str in the
source). -/
def funcRawString (fname params : List Char) : List Char :=
  '$' :: '\x7b' :: (fname ++ '(' :: (params ++ [')', '\x7d']))

/-- One scanning step of regex_findall_variables, on the remaining suffix
of the content; fuel is the suffix length plus one at the entry point, and
every step consumes at least one character. -/
def findallVarsLoop : Nat → List Char → List (List Char)
  | 0, _ => []
  | _ + 1, [] => []
  | fuel + 1, s =>
    match matchEscape s with
    | some rs => findallVarsLoop fuel rs
    | none =>
      match matchVariable s with
      | some (name, rs) => name :: findallVarsLoop fuel rs
      | none =>
        match s with
        | [] => []
        | _ :: cs => findallVarsLoop fuel (cs.dropWhile (· ≠ '$'))

/-- parser.regex_findall_variables: every variable name referenced in a
string, in scanning order (the Python caller wraps this in a set; only
membership is ever used). -/
def regex_findall_variables (raw : List Char) : List (List Char) :=
  findallVarsLoop (raw.length + 1) (raw.dropWhile (· ≠ '$'))

mutual
/-- parser.extract_variables: all variable names referenced anywhere in a
value, recursively; dict keys are not scanned, only values. -/
def extract_variables : PyVal → List (List Char)
  | .vStr s => regex_findall_variables s
  | .vList l => extractVariablesList l
  | .vDict d => extractVariablesPairs d
  | _ => []
termination_by structural v => v

/-- extract_variables over the items of a Python list. -/
def extractVariablesList : PyList → List (List Char)
  | .nil => []
  | .cons x xs => extract_variables x ++ extractVariablesList xs
termination_by structural l => l

/-- extract_variables over the values of a Python dict. -/
def extractVariablesPairs : PyPairs → List (List Char)
  | .nil => []
  | .cons _ v rest => extract_variables v ++ extractVariablesPairs rest
termination_by structural p => p
end

/-- Meta information of a parsed function-parameter string. -/
structure FuncMeta where
  args : List PyVal
  kwargs : List (List Char × PyVal)

/-- strip with an arbitrary character predicate, both ends. -/
def stripBy (p : Char → Bool) (s : List Char) : List Char :=
  ((s.dropWhile p).reverse.dropWhile p).reverse

/-- Python str.strip() (ASCII whitespace fragment). -/
def pyStrip (s : List Char) : List Char := stripBy Char.isWhitespace s

/-- Python str.strip(" \t") as used by parse_data. -/
def stripSpaceTab (s : List Char) : List Char :=
  stripBy (fun c => c = ' ' || c = '\t') s

/-- Python str.split(sep) helper. -/
def splitOnCharAux (sep : Char) : List Char → List Char → List (List Char)
  | [], acc => [acc.reverse]
  | c :: cs, acc =>
    if c = sep then acc.reverse :: splitOnCharAux sep cs []
    else splitOnCharAux sep cs (c :: acc)

/-- Python str.split(sep): split on every occurrence, keeping empty pieces. -/
def splitOnChar (sep : Char) (s : List Char) : List (List Char) :=
  splitOnCharAux sep s []

/-- The per-argument body of parse_function_params: strip the argument, treat
it as key=value when it contains an equals sign (the host two-way unpacking
raises ValueError unless the split yields exactly two pieces), otherwise as a
positional argument. -/
def buildFuncMeta : List (List Char) → FuncMeta → Except PyErr FuncMeta
  | [], meta => .ok meta
  | arg :: rest, meta =>
    let arg := pyStrip arg
    if '=' ∈ arg then
      match splitOnChar '=' arg with
      | [k, v] =>
        buildFuncMeta rest
          { meta with
            kwargs := assocAssign meta.kwargs (pyStrip k) (parse_string_value (pyStrip v)) }
      | _ => .error .valueError
    else
      buildFuncMeta rest { meta with args := meta.args ++ [parse_string_value arg] }

/-- parser.parse_function_params: parse a raw parameter string into
positional args and keyword args. -/
def parse_function_params (params : List Char) : Except PyErr FuncMeta :=
  let ps := pyStrip params
  if ps = [] then .ok { args := [], kwargs := [] }
  else buildFuncMeta (splitOnChar ',' ps) { args := [], kwargs := [] }

/-- parser.get_mapping_variable: variable lookup, VariableNotFound when
absent. -/
def get_mapping_variable (name : List Char) (vm : VarsMap) : Except PyErr PyVal :=
  match lookupVar vm name with
  | some v => .ok v
  | none => .error (.variableNotFound [name])

/-- External collaborators consulted by get_mapping_function: the builtin
function library (loader.load_builtin_functions reads httprunner.builtin,
not part of the sources), the host-language global builtins (getattr on the
builtins module), the lazily imported upload extension module (which defines
both attributes the source ever requests from it), the CSV loader and the
process-environment reader. -/
structure Externals where
  builtinFuncs : List Char → Option PyFunc
  pyBuiltins : List Char → Option PyFunc
  uploaderExt : List Char → PyFunc
  loadCsvFile : PyFunc
  getOsEnviron : PyFunc

/-- parser.get_mapping_function: resolve a function name through the ordered
sources of the source code: project functions, the parameterize / P aliases,
the environ / ENV aliases, the upload-extension helpers, the builtin function
library, the host-language builtins; FunctionNotFound when nothing matches. -/
def get_mapping_function (name : List Char) (fm : FuncsMap) (ext : Externals) :
    Except PyErr PyFunc :=
  match lookupFunc fm name with
  | some f => .ok f
  | none =>
    if name = "parameterize".data ∨ name = "P".data then .ok ext.loadCsvFile
    else if name = "environ".data ∨ name = "ENV".data then .ok ext.getOsEnviron
    else if name = "multipart_encoder".data ∨ name = "multipart_content_type".data then
      .ok (ext.uploaderExt name)
    else
      match ext.builtinFuncs name with
      | some f => .ok f
      | none =>
        match ext.pyBuiltins name with
        | some f => .ok f
        | none => .error (.functionNotFound name)

/-- Invoke a resolved callable on parsed positional and keyword arguments
(the parsed values are a Python list and dict by construction). -/
def callFunc (f : PyFunc) (pargs pkwargs : PyVal) : Except PyErr PyVal :=
  match pargs, pkwargs with
  | .vList l, .vDict d => f (pyListToList l) (pyPairsToList d)
  | _, _ => .error .typeError

/-- The work items of the fuel-driven evaluator: parse_string on a raw
string, the scanning loop of parse_string (carrying the original raw string,
the remaining suffix and the accumulated parsed text), parse_data on a value,
and parse_data mapped over list items and dict pairs. -/
inductive ParseTask where
  | pstr : List Char → ParseTask
  | ploop : List Char → List Char → List Char → ParseTask
  | pdata : PyVal → ParseTask
  | plist : PyList → ParseTask
  | ppairs : PyPairs → PyPairs → ParseTask

/-- The combined evaluator for parser.parse_string and parser.parse_data,
which are mutually recursive in the source (function-call arguments are
resolved through parse_data, which resolves strings through parse_string).
Fuel bounds the recursion depth; PyErr.outOfFuel is returned when it runs
out and never occurs at sufficient fuel on terminating source paths. -/
def parseF : Nat → ParseTask → VarsMap → FuncsMap → Externals → Except PyErr PyVal
  | 0, _, _, _, _ => .error .outOfFuel
  | fuel + 1, task, vm, fm, ext =>
    match task with
    | .pstr raw =>
      -- parse_string: find the first dollar; when there is none the raw
      -- string is returned unchanged, otherwise the scanning loop starts
      -- with the literal prefix already accumulated.
      if '$' ∈ raw then
        parseF fuel (.ploop raw (raw.dropWhile (· ≠ '$')) (raw.takeWhile (· ≠ '$'))) vm fm ext
      else .ok (.vStr raw)
    | .ploop raw remaining acc =>
      match remaining with
      | [] => .ok (.vStr acc)
      | _ =>
        match matchEscape remaining with
        | some rs =>
          -- dollar-dollar escape: emit a single literal dollar.
          parseF fuel (.ploop raw rs (acc ++ ['$'])) vm fm ext
        | none =>
        match matchFunction remaining with
        | some (fname, params, rs) =>
          match get_mapping_function fname fm ext with
          | .error e => .error e
          | .ok f =>
            match parse_function_params params with
            | .error e => .error e
            | .ok meta =>
              match parseF fuel (.plist (listToPyList meta.args)) vm fm ext with
              | .error e => .error e
              | .ok pargs =>
                match parseF fuel (.ppairs (strPairsToPyPairs meta.kwargs) .nil) vm fm ext with
                | .error e => .error e
                | .ok pkwargs =>
                  match callFunc f pargs pkwargs with
                  | .error e => .error e
                  | .ok v =>
                    if funcRawString fname params = raw then .ok v
                    else parseF fuel (.ploop raw rs (acc ++ pyStr v)) vm fm ext
        | none =>
          match matchVariable remaining with
          | some (name, rs) =>
            match get_mapping_variable name vm with
            | .error e => .error e
            | .ok v =>
              if varPlainForm name = raw ∨ varBraceForm name = raw then .ok v
              else parseF fuel (.ploop raw rs (acc ++ pyStr v)) vm fm ext
          | none =>
            match remaining with
            | [] => .ok (.vStr acc)
            | c :: cs =>
              -- no notation matched at this dollar: emit literal text up to
              -- the next dollar, or up to the end of the string.
              match cs.dropWhile (· ≠ '$') with
              | [] => .ok (.vStr (acc ++ remaining))
              | rest => parseF fuel (.ploop raw rest (acc ++ c :: cs.takeWhile (· ≠ '$'))) vm fm ext
    | .pdata v =>
      match v with
      | .vStr s =>
        -- parse_data on a string strips spaces and tabs at both ends, then
        -- delegates to parse_string.
        parseF fuel (.pstr (stripSpaceTab s)) vm fm ext
      | .vList l => parseF fuel (.plist l) vm fm ext
      | .vDict d => parseF fuel (.ppairs d .nil) vm fm ext
      | other => .ok other
    | .plist l =>
      match l with
      | .nil => .ok (.vList .nil)
      | .cons x xs =>
        match parseF fuel (.pdata x) vm fm ext with
        | .error e => .error e
        | .ok px =>
          match parseF fuel (.plist xs) vm fm ext with
          | .ok (.vList pxs) => .ok (.vList (.cons px pxs))
          | .error e => .error e
          | .ok _ => .error .typeError
    | .ppairs l acc =>
      match l with
      | .nil => .ok (.vDict acc)
      | .cons k v rest =>
        match parseF fuel (.pdata k) vm fm ext with
        | .error e => .error e
        | .ok pk =>
          match parseF fuel (.pdata v) vm fm ext with
          | .error e => .error e
          | .ok pv =>
            if isContainer pk then .error .typeError
            else parseF fuel (.ppairs rest (pyDictAssign acc pk pv)) vm fm ext

/-- parser.parse_string through the evaluator. -/
def parse_string (fuel : Nat) (raw : List Char) (vm : VarsMap) (fm : FuncsMap)
    (ext : Externals) : Except PyErr PyVal :=
  parseF fuel (.pstr raw) vm fm ext

/-- parser.parse_data through the evaluator. -/
def parse_data (fuel : Nat) (v : PyVal) (vm : VarsMap) (fm : FuncsMap)
    (ext : Externals) : Except PyErr PyVal :=
  parseF fuel (.pdata v) vm fm ext

/-- One full for-pass of parse_variables_mapping over the entries of the
mapping: skip names already resolved, fail on a self-reference, fail on a
reference to a name absent from the whole mapping, then try to resolve the
value against the already-resolved subset, skipping (not failing) when a
VariableNotFound says a dependency is not resolved yet. -/
def onePass (dataFuel : Nat) (fm : FuncsMap) (ext : Externals) (full : VarsMap) :
    VarsMap → VarsMap → Except PyErr VarsMap
  | [], parsed => .ok parsed
  | (name, value) :: rest, parsed =>
    if hasKey parsed name then onePass dataFuel fm ext full rest parsed
    else
      let vars := extract_variables value
      if name ∈ vars then .error (.variableNotFound [name])
      else
        if (vars.filter (fun v => !(hasKey full v))) ≠ [] then
          .error (.variableNotFound (vars.filter (fun v => !(hasKey full v))))
        else
          match parse_data dataFuel value parsed fm ext with
          | .error (.variableNotFound _) => onePass dataFuel fm ext full rest parsed
          | .error e => .error e
          | .ok pv => onePass dataFuel fm ext full rest (parsed ++ [(name, pv)])

/-- The while-loop of parse_variables_mapping: repeat full passes until the
resolved mapping has as many entries as the input; loopFuel bounds the number
of passes. -/
def pvmLoop (dataFuel : Nat) (fm : FuncsMap) (ext : Externals) (vm : VarsMap) :
    Nat → VarsMap → Except PyErr VarsMap
  | loopFuel, parsed =>
    if parsed.length = vm.length then .ok parsed
    else
      match loopFuel with
      | 0 => .error .outOfFuel
      | lf + 1 =>
        match onePass dataFuel fm ext vm vm parsed with
        | .error e => .error e
        | .ok parsed' => pvmLoop dataFuel fm ext vm lf parsed'

/-- parser.parse_variables_mapping: iterative fixed-point resolution of a
variables mapping. -/
def parse_variables_mapping (loopFuel dataFuel : Nat) (vm : VarsMap)
    (fm : FuncsMap) (ext : Externals) : Except PyErr VarsMap :=
  pvmLoop dataFuel fm ext vm loopFuel []

/-- models.StepResult restricted to the fields the orchestrator itself reads
and writes (name, step type, success flag, exported variables); the transport
payload, timing and attachment fields belong to external collaborators. -/
structure StepRes where
  name : List Char
  stepType : List Char
  success : Bool
  exportVars : VarsMap

/-- The mutable orchestrator state __run_step touches: the accumulated
session variables and the ordered list of step results. -/
structure RunnerState where
  sessionVariables : VarsMap
  stepResults : List StepRes

/-- One teststep as the orchestrator sees it: the retry settings of the step
and the behaviour of IStep.run, indexed by the attempt number (the step body,
setup hooks included, is re-entered from scratch on every attempt; the
transport work inside it is an external collaborator). -/
structure StepSpec where
  retryTimes : Nat
  retryInterval : Nat
  run : Nat → RunnerState → Except PyErr StepRes

/-- The retry for-loop of SessionRunner.__run_step: countdown counts the
attempts still allowed after this one, i is the current attempt index, slept
accumulates the seconds spent sleeping between attempts.  A successful
attempt leaves the loop with the result and the number of attempts made; a
ValidationFailure before the last allowed attempt sleeps retry_interval and
re-runs the whole step body; a ValidationFailure on the last attempt, and
any other exception anywhere, propagates. -/
def runRetryAux (attempt : Nat → RunnerState → Except PyErr StepRes)
    (interval : Nat) (st : RunnerState) :
    Nat → Nat → Nat → Except PyErr (StepRes × Nat × Nat)
  | 0, i, slept =>
    match attempt i st with
    | .ok r => .ok (r, i + 1, slept)
    | .error e => .error e
  | c + 1, i, slept =>
    match attempt i st with
    | .ok r => .ok (r, i + 1, slept)
    | .error .validationFailure => runRetryAux attempt interval st c (i + 1) (slept + interval)
    | .error e => .error e

/-- The whole retry loop of __run_step, started at attempt 0. -/
def runStepRetryLoop (step : StepSpec) (st : RunnerState) :
    Except PyErr (StepRes × Nat × Nat) :=
  runRetryAux step.run step.retryInterval st step.retryTimes 0 0

/-- SessionRunner.__run_step: run the retry loop; only after it succeeds are
the exported variables merged into the session scope and the step result
appended to the result list.  An escaping exception leaves the recorded
state untouched. -/
def runStep (step : StepSpec) (st : RunnerState) : Option PyErr × RunnerState :=
  match runStepRetryLoop step st with
  | .error e => (some e, st)
  | .ok (r, _, _) =>
    (none,
      { sessionVariables := dictUpdateAll st.sessionVariables r.exportVars,
        stepResults := st.stepResults ++ [r] })

/-- The step loop of SessionRunner.test_start: steps run in declared order;
an escaping exception aborts the remaining steps. -/
def runTeststeps : List StepSpec → RunnerState → Option PyErr × RunnerState
  | [], st => (none, st)
  | s :: rest, st =>
    match runStep s st with
    | (some e, st') => (some e, st')
    | (none, st') => runTeststeps rest st'

/-- The per-name body of SessionRunner.get_export_variables: each name must
be present in the session variables, otherwise ParamsError. -/
def exportEach (sv : VarsMap) : List (List Char) → VarsMap → Except PyErr VarsMap
  | [], acc => .ok acc
  | n :: rest, acc =>
    match lookupVar sv n with
    | none => .error .paramsError
    | some v => exportEach sv rest (assocAssign acc n v)

/-- SessionRunner.get_export_variables: the step-level export list when it
is non-empty (Python truthiness of __export or __config.export), otherwise
the config-level export list; every listed name is read from the session
variables. -/
def get_export_variables (stepExport configExport : List (List Char))
    (sv : VarsMap) : Except PyErr VarsMap :=
  exportEach sv (if stepExport = [] then configExport else stepExport) []

/-- models.TestCaseSummary restricted to the fields assembled from the
orchestrator state (name, overall success, resolved config variables,
exported variables, ordered step results); timing, case id and the log path
come from clock / uuid / filesystem collaborators. -/
structure Summary where
  name : List Char
  success : Bool
  configVars : VarsMap
  exportVars : VarsMap
  stepResults : List StepRes

/-- SessionRunner.get_summary: overall success is the conjunction of the
step-result success flags; the export mapping is computed by
get_export_variables and its ParamsError propagates. -/
def get_summary (st : RunnerState) (configName : List Char) (configVars : VarsMap)
    (stepExport configExport : List (List Char)) : Except PyErr Summary :=
  let summarySuccess := st.stepResults.all (fun r => r.success)
  match get_export_variables stepExport configExport st.sessionVariables with
  | .error e => .error e
  | .ok ev =>
    .ok { name := configName, success := summarySuccess, configVars := configVars,
          exportVars := ev, stepResults := st.stepResults }

/-- dict(zip(name_list, item_list)): pair names with values positionally
(the shorter sequence truncates the zip, as in Python), later duplicate
names overriding earlier ones. -/
def zipToDict (names : List (List Char)) (items : List PyVal) : VarsMap :=
  (names.zip items).foldl (fun d kv => assocAssign d kv.1 kv.2) []

/-- The list branch of parse_parameters: each item that is not itself a
list is wrapped into a one-element list, then zipped against the
dash-separated name list. -/
def paramListEntry (names : List (List Char)) : List PyVal → List VarsMap
  | [] => []
  | item :: rest =>
    let itemList :=
      match item with
      | .vList l => pyListToList l
      | other => [other]
    zipToDict names itemList :: paramListEntry names rest

/-- The dict comprehension of the text branch of parse_parameters: project
the item dict onto the declared names, failing with the host KeyError when
a name is absent. -/
def subsetByNames (d : PyPairs) : List (List Char) → VarsMap → Except PyErr VarsMap
  | [], acc => .ok acc
  | n :: rest, acc =>
    match pyDictGet d (.vStr n) with
    | none => .error .keyError
    | some v => subsetByNames d rest (assocAssign acc n v)

/-- One item of the text branch of parse_parameters: a dict is projected
onto the name list, a list is zipped positionally when the lengths agree,
a scalar is accepted only for a single declared name; anything else is a
parameter-format error. -/
def paramItemDict (names : List (List Char)) (item : PyVal) : Except PyErr VarsMap :=
  match item with
  | .vDict d => subsetByNames d names []
  | .vList l =>
    if names.length = (pyListToList l).length then .ok (zipToDict names (pyListToList l))
    else .error .paramsError
  | scalar =>
    match names with
    | [n] => .ok [(n, scalar)]
    | _ => .error .paramsError

/-- The text branch of parse_parameters over all items of the evaluated
parameter content. -/
def paramTextEntry (names : List (List Char)) : List PyVal → Except PyErr (List VarsMap)
  | [] => .ok []
  | item :: rest =>
    match paramItemDict names item with
    | .error e => .error e
    | .ok d =>
      match paramTextEntry names rest with
      | .error e => .error e
      | .ok ds => .ok (d :: ds)

/-- One top-level parameter entry of parse_parameters: a literal list is
zipped, a template string is resolved (with an empty variables mapping and
the project functions) and must evaluate to a list; any other content type
is a parameter-format error. -/
def oneParamEntry (dataFuel : Nat) (fm : FuncsMap) (ext : Externals)
    (pname : List Char) (content : PyVal) : Except PyErr (List VarsMap) :=
  let names := splitOnChar '-' pname
  match content with
  | .vList l => .ok (paramListEntry names (pyListToList l))
  | .vStr s =>
    match parse_data dataFuel (.vStr s) [] fm ext with
    | .error e => .error e
    | .ok (.vList l) => paramTextEntry names (pyListToList l)
    | .ok _ => .error .paramsError
  | _ => .error .paramsError

/-- All per-entry dict lists of parse_parameters, in declaration order. -/
def paramEntryLists (dataFuel : Nat) (fm : FuncsMap) (ext : Externals) :
    List (List Char × PyVal) → Except PyErr (List (List VarsMap))
  | [] => .ok []
  | (pname, content) :: rest =>
    match oneParamEntry dataFuel fm ext pname content with
    | .error e => .error e
    | .ok entry =>
      match paramEntryLists dataFuel fm ext rest with
      | .error e => .error e
      | .ok entries => .ok (entry :: entries)

/-- Modelled from the spec: utils.gen_cartesian_product is not among the
sources; spec section 4.5 prescribes the cartesian product across the
per-entry dict lists, following entry declaration order with the left
factor varying slowest, one merged dict per combination. -/
def gen_cartesian_product : List (List VarsMap) → List VarsMap
  | [] => [[]]
  | l :: rest =>
    let tail := gen_cartesian_product rest
    l.flatMap (fun d => tail.map (fun m => dictUpdateAll d m))

/-- parser.parse_parameters: expand a parameter specification into the
cartesian product of per-entry variable dicts.  The project functions
mapping, read by the source from the loader's project meta, is passed
explicitly here. -/
def parse_parameters (dataFuel : Nat) (params : List (List Char × PyVal))
    (fm : FuncsMap) (ext : Externals) : Except PyErr (List VarsMap) :=
  match paramEntryLists dataFuel fm ext params with
  | .error e => .error e
  | .ok ls => .ok (gen_cartesian_product ls)

/-- First hit in an ordered list of name-resolution sources. -/
def firstSome (fs : List (List Char → Option PyFunc)) (name : List Char) :
    Option PyFunc :=
  match fs with
  | [] => none
  | f :: rest =>
    match f name with
    | some g => some g
    | none => firstSome rest name

/-- The ordered function-resolution sources exactly as the spec words them
in section 4.3: (1) project-defined functions; (2) the reserved aliases
parameterize / P for the CSV-loading helper; (3) the reserved aliases
environ / ENV for the process-environment lookup; (4) the lazily resolved
extension helpers; (5) the builtin function library of the engine; (6) the
host-language global builtins. -/
def specFunctionSources (fm : FuncsMap) (ext : Externals) :
    List (List Char → Option PyFunc) :=
  [ fun n => lookupFunc fm n,
    fun n => if n = "parameterize".data ∨ n = "P".data then some ext.loadCsvFile else none,
    fun n => if n = "environ".data ∨ n = "ENV".data then some ext.getOsEnviron else none,
    fun n =>
      if n = "multipart_encoder".data ∨ n = "multipart_content_type".data then
        some (ext.uploaderExt n)
      else none,
    fun n => ext.builtinFuncs n,
    fun n => ext.pyBuiltins n ]

/-- The spec-side resolver of section 4.3: first match over the ordered
sources, FunctionNotFound when no source matches. -/
def spec_resolve_function (name : List Char) (fm : FuncsMap) (ext : Externals) :
    Except PyErr PyFunc :=
  match firstSome (specFunctionSources fm ext) name with
  | some f => .ok f
  | none => .error (.functionNotFound name)

/-- A callable that rejects every invocation; stands in for external
callables whose behaviour never matters in a statement. -/
def noFunc : PyFunc := fun _ _ => .error .typeError

/-- Externals with empty builtin sources, for concrete statements. -/
def emptyExternals : Externals :=
  { builtinFuncs := fun _ => none, pyBuiltins := fun _ => none,
    uploaderExt := fun _ => noFunc, loadCsvFile := noFunc, getOsEnviron := noFunc }

/-- The project function add_one used by the spec's own examples. -/
def addOneF : PyFunc := fun args kwargs =>
  match args, kwargs with
  | [PyVal.vInt n], [] => .ok (.vInt (n + 1))
  | _, _ => .error .typeError

/-! ## Helper lemmas and predicates for the claim theorems -/

/-- Valid identifier per the regexes: one name-start character, then word
characters. -/
def validNameB : List Char → Bool
  | [] => false
  | c :: cs => isNameStart c && cs.all isWordChar

/-- Is the value a Python string? -/
def isStrVal : PyVal → Bool
  | .vStr _ => true
  | _ => false

/-- The raw string is exactly one variable reference or exactly one function
call, with no surrounding literal text. -/
def isSingleTemplate (raw : List Char) : Prop :=
  (∃ name, validNameB name = true ∧ (raw = varPlainForm name ∨ raw = varBraceForm name)) ∨
  (∃ fname params, validNameB fname = true ∧ params.all isParamChar = true ∧
    raw = funcRawString fname params)

theorem listTakeWhileStop {p : Char → Bool}
    (xs : List Char) (y : Char) (ys : List Char) (hall : ∀ c ∈ xs, p c = true)
    (hy : p y = false) : (xs ++ y :: ys).takeWhile p = xs := by
  induction xs with
  | nil => simp [List.takeWhile_cons, hy]
  | cons c cs ih =>
    have hc : p c = true := hall c (List.mem_cons_self c cs)
    simp only [List.cons_append, List.takeWhile_cons, hc, if_true]
    rw [ih (fun d hd => hall d (List.mem_cons_of_mem _ hd))]

theorem listDropWhileStop {p : Char → Bool}
    (xs : List Char) (y : Char) (ys : List Char) (hall : ∀ c ∈ xs, p c = true)
    (hy : p y = false) : (xs ++ y :: ys).dropWhile p = y :: ys := by
  induction xs with
  | nil => simp [List.dropWhile_cons, hy]
  | cons c cs ih =>
    have hc : p c = true := hall c (List.mem_cons_self c cs)
    simp only [List.cons_append, List.dropWhile_cons, hc, if_true]
    exact ih (fun d hd => hall d (List.mem_cons_of_mem _ hd))

theorem splitOnCharAux_length (sep : Char) :
    ∀ (s acc : List Char), (splitOnCharAux sep s acc).length = s.count sep + 1 := by
  intro s
  induction s with
  | nil => intro acc; simp [splitOnCharAux]
  | cons c cs ih =>
    intro acc
    by_cases h : c = sep
    · subst h
      simp [splitOnCharAux, ih, List.count_cons]
    · simp [splitOnCharAux, h, ih, List.count_cons]

theorem splitOnChar_length (sep : Char) (s : List Char) :
    (splitOnChar sep s).length = s.count sep + 1 :=
  splitOnCharAux_length sep s []

/-- Processing one argument with at most one equals sign always steps to the
rest of the argument list. -/
theorem buildFuncMeta_step {a : List Char} (h : (pyStrip a).count '=' ≤ 1)
    (rest : List (List Char)) (meta : FuncMeta) :
    ∃ meta', buildFuncMeta (a :: rest) meta = buildFuncMeta rest meta' := by
  rcases Nat.lt_or_ge ((pyStrip a).count '=') 1 with h0 | h1
  · -- no equals sign: positional argument
    have hmem : '=' ∉ pyStrip a := by
      intro hm
      have := List.count_pos_iff.mpr hm
      omega
    exact ⟨{ meta with args := meta.args ++ [parse_string_value (pyStrip a)] },
      by simp [buildFuncMeta, hmem]⟩
  · -- exactly one equals sign: the two-way split succeeds
    have hcount : (pyStrip a).count '=' = 1 := by omega
    have hmem : '=' ∈ pyStrip a := by
      apply List.count_pos_iff.mp
      omega
    have hlen : (splitOnChar '=' (pyStrip a)).length = 2 := by
      rw [splitOnChar_length, hcount]
    rcases hsp : splitOnChar '=' (pyStrip a) with _ | ⟨k, _ | ⟨v, _ | _⟩⟩ <;>
      rw [hsp] at hlen <;> simp at hlen
    exact ⟨{ meta with
        kwargs := assocAssign meta.kwargs (pyStrip k) (parse_string_value (pyStrip v)) },
      by simp [buildFuncMeta, hmem, hsp]⟩

/-- An argument with two or more equals signs makes the two-way split blow
up with the host ValueError. -/
theorem buildFuncMeta_valueError :
    ∀ (argsList : List (List Char)) (meta : FuncMeta),
      (∃ arg ∈ argsList, 2 ≤ (pyStrip arg).count '=') →
      buildFuncMeta argsList meta = .error .valueError := by
  intro argsList
  induction argsList with
  | nil => intro meta h; simp at h
  | cons a rest ih =>
    intro meta h
    by_cases ha : 2 ≤ (pyStrip a).count '='
    · have hmem : '=' ∈ pyStrip a := by
        apply List.count_pos_iff.mp
        omega
      have hlen : 3 ≤ (splitOnChar '=' (pyStrip a)).length := by
        rw [splitOnChar_length]
        omega
      rcases hsp : splitOnChar '=' (pyStrip a) with _ | ⟨k, _ | ⟨v, _ | _⟩⟩ <;>
        rw [hsp] at hlen <;> simp at hlen <;>
        simp [buildFuncMeta, hmem, hsp]
    · have hrest : ∃ arg ∈ rest, 2 ≤ (pyStrip arg).count '=' := by
        rcases h with ⟨arg, hargmem, hargc⟩
        rcases List.mem_cons.mp hargmem with rfl | hmem2
        · exact absurd hargc ha
        · exact ⟨arg, hmem2, hargc⟩
      obtain ⟨meta', hstep⟩ := buildFuncMeta_step (a := a) (by omega) rest meta
      rw [hstep]
      exact ih meta' hrest

/-- When every argument has at most one equals sign the whole parameter
parse succeeds. -/
theorem buildFuncMeta_total :
    ∀ (argsList : List (List Char)) (meta : FuncMeta),
      (∀ arg ∈ argsList, (pyStrip arg).count '=' ≤ 1) →
      ∃ m, buildFuncMeta argsList meta = .ok m := by
  intro argsList
  induction argsList with
  | nil => intro meta _; exact ⟨meta, rfl⟩
  | cons a rest ih =>
    intro meta h
    obtain ⟨meta', hstep⟩ := buildFuncMeta_step (a := a) (h a (List.mem_cons_self a rest)) rest meta
    rw [hstep]
    exact ih meta' (fun arg hm => h arg (List.mem_cons_of_mem _ hm))

/-- C10: an argument of a function-call parameter string that contains more
than one equals sign makes parse_function_params fail with the host
ValueError from the two-way split (not FunctionNotFound or ParamsError),
while parameter strings all of whose comma-separated arguments contain at
most one equals sign are parsed successfully. -/
theorem claim_C10 (params : List Char) :
    ((∃ arg ∈ splitOnChar ',' (pyStrip params), 2 ≤ (pyStrip arg).count '=') →
      parse_function_params params = .error .valueError) ∧
    ((∀ arg ∈ splitOnChar ',' (pyStrip params), (pyStrip arg).count '=' ≤ 1) →
      ∃ m, parse_function_params params = .ok m) := by
  constructor
  · intro h
    unfold parse_function_params
    by_cases hps : pyStrip params = []
    · rw [hps] at h
      rcases h with ⟨arg, hmem, hc⟩
      simp [splitOnChar, splitOnCharAux] at hmem
      subst hmem
      simp [pyStrip, stripBy] at hc
    · simp only [hps, ite_false]
      exact buildFuncMeta_valueError _ _ h
  · intro h
    unfold parse_function_params
    by_cases hps : pyStrip params = []
    · simp [hps]
    · simp only [hps, ite_false]
      exact buildFuncMeta_total _ _ h

/-- Witness for C10 at the concrete inputs a=1=2 (ValueError) and
1, 2, a=3 (successful parse). -/
theorem claim_C10_witness :
    parse_function_params ("a=1=2".data) = .error .valueError ∧
    (∃ m, parse_function_params ("1, 2, a=3".data) = .ok m) :=
  ⟨(claim_C10 ("a=1=2".data)).1 (by decide),
   (claim_C10 ("1, 2, a=3".data)).2 (by decide)⟩

theorem lookupVar_assocAssign (m : VarsMap) (k k' : List Char) (v : PyVal) :
    lookupVar (assocAssign m k v) k' = if k' = k then some v else lookupVar m k' := by
  induction m with
  | nil =>
    simp only [assocAssign, lookupVar]
    split_ifs with h1 h2 <;> simp_all
  | cons p rest ih =>
    obtain ⟨k0, v0⟩ := p
    simp only [assocAssign, lookupVar]
    split_ifs with h1 h2 h3 <;> simp_all [lookupVar, ih]

/-- A missing export name makes the export loop fail with ParamsError. -/
theorem exportEach_missing (sv : VarsMap) :
    ∀ (names : List (List Char)) (acc : VarsMap),
      (∃ n ∈ names, hasKey sv n = false) →
      exportEach sv names acc = .error .paramsError := by
  intro names
  induction names with
  | nil => intro acc h; simp at h
  | cons n rest ih =>
    intro acc h
    cases hn : lookupVar sv n with
    | none => simp [exportEach, hn]
    | some v =>
      have hrest : ∃ n' ∈ rest, hasKey sv n' = false := by
        rcases h with ⟨n', hmem, hfalse⟩
        rcases List.mem_cons.mp hmem with rfl | hmem2
        · rw [hasKey, hn] at hfalse
          simp at hfalse
        · exact ⟨n', hmem2, hfalse⟩
      simp only [exportEach, hn]
      exact ih _ hrest

/-- When every export name is present, the export loop succeeds and the
result agrees with the session variables on every exported name. -/
theorem exportEach_ok (sv : VarsMap) :
    ∀ (names : List (List Char)) (acc : VarsMap),
      (∀ n ∈ names, hasKey sv n = true) →
      (∀ k w, lookupVar acc k = some w → lookupVar sv k = some w) →
      ∃ m, exportEach sv names acc = .ok m ∧
        (∀ k w, lookupVar m k = some w → lookupVar sv k = some w) ∧
        (∀ k, hasKey acc k = true → hasKey m k = true) ∧
        (∀ n ∈ names, hasKey m n = true) := by
  intro names
  induction names with
  | nil =>
    intro acc _ hinv
    exact ⟨acc, rfl, hinv, fun _ h => h, by simp⟩
  | cons n rest ih =>
    intro acc hall hinv
    have hn : hasKey sv n = true := hall n (List.mem_cons_self n rest)
    rw [hasKey] at hn
    cases hlv : lookupVar sv n with
    | none => rw [hlv] at hn; simp at hn
    | some v =>
      have hinv' : ∀ k w, lookupVar (assocAssign acc n v) k = some w →
          lookupVar sv k = some w := by
        intro k w hk
        rw [lookupVar_assocAssign] at hk
        by_cases hkn : k = n
        · rw [if_pos hkn] at hk
          cases hk
          rw [hkn, hlv]
        · rw [if_neg hkn] at hk
          exact hinv k w hk
      obtain ⟨m, hrun, hminv, hmono, hmem⟩ :=
        ih (assocAssign acc n v) (fun n' h' => hall n' (List.mem_cons_of_mem _ h')) hinv'
      refine ⟨m, ?_, hminv, ?_, ?_⟩
      · simp only [exportEach, hlv]
        exact hrun
      · intro k hk
        apply hmono
        rw [hasKey, lookupVar_assocAssign]
        by_cases hkn : k = n
        · simp [hkn]
        · rw [if_neg hkn]
          rw [hasKey] at hk
          exact hk
      · intro n' hn'
        rcases List.mem_cons.mp hn' with rfl | h2
        · apply hmono
          rw [hasKey, lookupVar_assocAssign]
          simp
        · exact hmem n' h2

/-- C5: the effective export-name list is the step-level list when it is
non-empty, otherwise the config-level list (override, not additive); a name
of the effective list that is absent from the session variables makes
export fail with ParamsError; when all names are present the result maps
every declared name to its session value. -/
theorem claim_C5 (stepExport configExport : List (List Char)) (sv : VarsMap) :
    (stepExport ≠ [] →
      get_export_variables stepExport configExport sv = exportEach sv stepExport []) ∧
    (stepExport = [] →
      get_export_variables stepExport configExport sv = exportEach sv configExport []) ∧
    ((∃ n ∈ (if stepExport = [] then configExport else stepExport), hasKey sv n = false) →
      get_export_variables stepExport configExport sv = .error .paramsError) ∧
    ((∀ n ∈ (if stepExport = [] then configExport else stepExport), hasKey sv n = true) →
      ∃ m, get_export_variables stepExport configExport sv = .ok m ∧
        ∀ n ∈ (if stepExport = [] then configExport else stepExport),
          lookupVar m n = lookupVar sv n) := by
  refine ⟨?_, ?_, ?_, ?_⟩
  · intro h
    simp [get_export_variables, h]
  · intro h
    simp [get_export_variables, h]
  · intro h
    unfold get_export_variables
    exact exportEach_missing sv _ [] h
  · intro h
    obtain ⟨m, hrun, hinv, _, hmem⟩ :=
      exportEach_ok sv (if stepExport = [] then configExport else stepExport) []
        h (by intro k w hk; simp [lookupVar] at hk)
    refine ⟨m, hrun, ?_⟩
    intro n hn
    have hk := hmem n hn
    rw [hasKey] at hk
    cases hm : lookupVar m n with
    | none => rw [hm] at hk; simp at hk
    | some w => rw [(hinv n w hm)]

/-- Witness for C5: a step-level export list x with a session scope that
never defines x fails with ParamsError. -/
theorem claim_C5_witness :
    get_export_variables [("x".data)] [] [] = .error .paramsError :=
  (claim_C5 [("x".data)] [] []).2.2.1 (by decide)

/-- A run of ValidationFailure attempts followed by a success inside the
allowed budget makes the retry loop succeed with that result, counting one
attempt per try and one sleep per retry. -/
theorem runRetryAux_success (att : Nat → RunnerState → Except PyErr StepRes)
    (interval : Nat) (st : RunnerState) :
    ∀ (k c i slept : Nat) (r : StepRes), k ≤ c →
      (∀ j, j < k → att (i + j) st = .error .validationFailure) →
      att (i + k) st = .ok r →
      runRetryAux att interval st c i slept = .ok (r, i + k + 1, slept + k * interval) := by
  intro k
  induction k with
  | zero =>
    intro c i slept r _ _ hok
    rw [Nat.add_zero] at hok
    cases c <;> simp [runRetryAux, hok]
  | succ k ih =>
    intro c i slept r hk hvf hok
    cases c with
    | zero => omega
    | succ c' =>
      have h0 : att i st = .error .validationFailure := by
        have := hvf 0 (Nat.succ_pos k)
        rwa [Nat.add_zero] at this
      simp only [runRetryAux, h0]
      have hvf' : ∀ j, j < k → att (i + 1 + j) st = .error .validationFailure := by
        intro j hj
        have := hvf (j + 1) (by omega)
        rwa [show i + (j + 1) = i + 1 + j by omega] at this
      have hok' : att (i + 1 + k) st = .ok r := by
        rwa [show i + (k + 1) = i + 1 + k by omega] at hok
      have := ih c' (i + 1) (slept + interval) r (by omega) hvf' hok'
      rw [this]
      have e1 : i + 1 + k + 1 = i + (k + 1) + 1 := by omega
      have e2 : slept + interval + k * interval = slept + (k + 1) * interval := by
        rw [Nat.succ_mul]
        omega
      rw [e1, e2]

/-- A non-ValidationFailure error propagates out of the retry loop at once. -/
theorem runRetryAux_fail (att : Nat → RunnerState → Except PyErr StepRes)
    (interval : Nat) (st : RunnerState) :
    ∀ (k c i slept : Nat) (e : PyErr), k ≤ c →
      (∀ j, j < k → att (i + j) st = .error .validationFailure) →
      att (i + k) st = .error e → e ≠ .validationFailure →
      runRetryAux att interval st c i slept = .error e := by
  intro k
  induction k with
  | zero =>
    intro c i slept e _ _ herr hne
    rw [Nat.add_zero] at herr
    cases c with
    | zero => simp [runRetryAux, herr]
    | succ c' =>
      cases e <;> simp_all [runRetryAux, herr]
  | succ k ih =>
    intro c i slept e hk hvf herr hne
    cases c with
    | zero => omega
    | succ c' =>
      have h0 : att i st = .error .validationFailure := by
        have := hvf 0 (Nat.succ_pos k)
        rwa [Nat.add_zero] at this
      simp only [runRetryAux, h0]
      have hvf' : ∀ j, j < k → att (i + 1 + j) st = .error .validationFailure := by
        intro j hj
        have := hvf (j + 1) (by omega)
        rwa [show i + (j + 1) = i + 1 + j by omega] at this
      have herr' : att (i + 1 + k) st = .error e := by
        rwa [show i + (k + 1) = i + 1 + k by omega] at herr
      exact ih c' (i + 1) (slept + interval) e (by omega) hvf' herr' hne

/-- When every allowed attempt fails validation, the final ValidationFailure
propagates out of the retry loop. -/
theorem runRetryAux_allVF (att : Nat → RunnerState → Except PyErr StepRes)
    (interval : Nat) (st : RunnerState) :
    ∀ (c i slept : Nat),
      (∀ j, j ≤ c → att (i + j) st = .error .validationFailure) →
      runRetryAux att interval st c i slept = .error .validationFailure := by
  intro c
  induction c with
  | zero =>
    intro i slept h
    have h0 := h 0 (Nat.le_refl 0)
    rw [Nat.add_zero] at h0
    simp [runRetryAux, h0]
  | succ c' ih =>
    intro i slept h
    have h0 := h 0 (Nat.zero_le _)
    rw [Nat.add_zero] at h0
    simp only [runRetryAux, h0]
    apply ih
    intro j hj
    have := h (j + 1) (by omega)
    rwa [show i + (j + 1) = i + 1 + j by omega] at this

/-- C4: the retry wrapper of __run_step makes at most retry_times + 1
attempts: a success at attempt k (after k validation failures, k bounded by
retry_times) yields that result with exactly k + 1 attempts made and
k sleeps of retry_interval seconds; any exception other than
ValidationFailure propagates immediately; a ValidationFailure on every
allowed attempt propagates out. -/
theorem claim_C4 (step : StepSpec) (st : RunnerState) :
    (∀ k r, k ≤ step.retryTimes →
      (∀ j, j < k → step.run j st = .error .validationFailure) →
      step.run k st = .ok r →
      runStepRetryLoop step st = .ok (r, k + 1, k * step.retryInterval)) ∧
    (∀ i e, i ≤ step.retryTimes →
      (∀ j, j < i → step.run j st = .error .validationFailure) →
      step.run i st = .error e → e ≠ .validationFailure →
      runStepRetryLoop step st = .error e) ∧
    ((∀ j, j ≤ step.retryTimes → step.run j st = .error .validationFailure) →
      runStepRetryLoop step st = .error .validationFailure) := by
  refine ⟨?_, ?_, ?_⟩
  · intro k r hk hvf hok
    have := runRetryAux_success step.run step.retryInterval st k step.retryTimes 0 0 r hk
      (by intro j hj; rw [Nat.zero_add]; exact hvf j hj) (by rwa [Nat.zero_add])
    rwa [Nat.zero_add, Nat.zero_add] at this
  · intro i e hi hvf herr hne
    have := runRetryAux_fail step.run step.retryInterval st i step.retryTimes 0 0 e hi
      (by intro j hj; rw [Nat.zero_add]; exact hvf j hj) (by rwa [Nat.zero_add]) hne
    exact this
  · intro h
    exact runRetryAux_allVF step.run step.retryInterval st step.retryTimes 0 0
      (by intro j hj; rw [Nat.zero_add]; exact h j hj)

/-- Witness for C4: a step with retry_times = 2, retry_interval = 0 that
fails validation on attempts 0 and 1 and passes on attempt 2 succeeds with
exactly 3 attempts made, no sleep time, and a successful StepResult. -/
theorem claim_C4_witness :
    runStepRetryLoop
        ⟨2, 0, fun i _ => if i < 2 then .error .validationFailure
                          else .ok ⟨[], [], true, []⟩⟩ ⟨[], []⟩ =
      .ok (⟨[], [], true, []⟩, 3, 0) ∧
    (⟨[], [], true, []⟩ : StepRes).success = true := by
  constructor
  · have h := (claim_C4
      ⟨2, 0, fun i _ => if i < 2 then .error .validationFailure
                        else .ok ⟨[], [], true, []⟩⟩ ⟨[], []⟩).1 2 ⟨[], [], true, []⟩
      (Nat.le_refl 2) (by intro j hj; simp [hj]) (by simp)
    simpa using h
  · rfl

/-- C9: when the retry loop of __run_step raises, the recorded orchestrator
state is unchanged: no StepResult is appended and no export variables are
merged, the step loop aborts with the same state, and a summary always
lists exactly the recorded StepResults with success the conjunction of
their success flags. -/
theorem claim_C9 :
    (∀ (step : StepSpec) (st : RunnerState) (e : PyErr),
      runStepRetryLoop step st = .error e → runStep step st = (some e, st)) ∧
    (∀ (step : StepSpec) (rest : List StepSpec) (st : RunnerState) (e : PyErr),
      runStepRetryLoop step st = .error e →
      runTeststeps (step :: rest) st = (some e, st)) ∧
    (∀ (st : RunnerState) (cn : List Char) (cv : VarsMap)
        (se ce : List (List Char)) (s : Summary),
      get_summary st cn cv se ce = .ok s →
      s.stepResults = st.stepResults ∧
        s.success = st.stepResults.all (fun r => r.success)) := by
  refine ⟨?_, ?_, ?_⟩
  · intro step st e h
    simp [runStep, h]
  · intro step rest st e h
    simp [runTeststeps, runStep, h]
  · intro st cn cv se ce s h
    unfold get_summary at h
    cases hex : get_export_variables se ce st.sessionVariables with
    | error e => rw [hex] at h; simp at h
    | ok ev =>
      rw [hex] at h
      simp only [Except.ok.injEq] at h
      subst h
      exact ⟨rfl, rfl⟩

/-- Witness for C9: a step whose only attempt fails validation leaves a
state with one previously recorded result untouched, both under __run_step
and under the step loop, and the summary of that state lists exactly the
recorded result. -/
theorem claim_C9_witness :
    runStep ⟨0, 0, fun _ _ => .error .validationFailure⟩ ⟨[], [⟨[], [], true, []⟩]⟩ =
      (some PyErr.validationFailure, ⟨[], [⟨[], [], true, []⟩]⟩) ∧
    runTeststeps [⟨0, 0, fun _ _ => .error .validationFailure⟩] ⟨[], [⟨[], [], true, []⟩]⟩ =
      (some PyErr.validationFailure, ⟨[], [⟨[], [], true, []⟩]⟩) ∧
    (⟨[], true, [], [], [⟨[], [], true, []⟩]⟩ : Summary).stepResults =
      [(⟨[], [], true, []⟩ : StepRes)] :=
  ⟨claim_C9.1 _ _ _ rfl,
   claim_C9.2.1 _ [] _ _ rfl,
   (claim_C9.2.2 ⟨[], [⟨[], [], true, []⟩]⟩ [] [] [] [] _ rfl).1⟩

/-- C6: get_mapping_function resolves a name exactly as the ordered chain of
the spec: project functions, then the parameterize / P aliases, then the
environ / ENV aliases, then the lazily resolved extension helpers, then the
engine's builtin function library, then the host-language global builtins,
and FunctionNotFound when no source matches; a name found in an earlier
source therefore shadows every later source. -/
theorem claim_C6 (name : List Char) (fm : FuncsMap) (ext : Externals) :
    get_mapping_function name fm ext = spec_resolve_function name fm ext := by
  unfold get_mapping_function spec_resolve_function specFunctionSources
  cases h1 : lookupFunc fm name with
  | some f => simp [firstSome, h1]
  | none =>
    simp only [firstSome, h1]
    by_cases h2 : name = "parameterize".data ∨ name = "P".data
    · simp [h2]
    · simp only [h2, if_false, ite_false]
      by_cases h3 : name = "environ".data ∨ name = "ENV".data
      · simp [h2, h3]
      · simp only [h3, if_false, ite_false]
        by_cases h4 : name = "multipart_encoder".data ∨ name = "multipart_content_type".data
        · simp [h2, h3, h4]
        · simp only [h4, if_false, ite_false]
          cases h5 : ext.builtinFuncs name with
          | some f => simp [h2, h3, h4, h5]
          | none =>
            cases h6 : ext.pyBuiltins name with
            | some f => simp [h2, h3, h4, h5, h6]
            | none => simp [h2, h3, h4, h5, h6]

theorem mem_of_mem_dropWhile {p : Char → Bool} :
    ∀ {l : List Char} {c : Char}, c ∈ l.dropWhile p → c ∈ l := by
  intro l
  induction l with
  | nil => intro c h; simp [List.dropWhile] at h
  | cons a as ih =>
    intro c h
    rw [List.dropWhile_cons] at h
    by_cases ha : p a = true
    · rw [if_pos ha] at h
      exact List.mem_cons_of_mem _ (ih h)
    · rw [if_neg ha] at h
      exact h

theorem mem_of_mem_stripBy {p : Char → Bool} {s : List Char} {c : Char}
    (h : c ∈ stripBy p s) : c ∈ s := by
  unfold stripBy at h
  rw [List.mem_reverse] at h
  have h2 := mem_of_mem_dropWhile h
  rw [List.mem_reverse] at h2
  exact mem_of_mem_dropWhile h2

/-- C3 (amended): for a string without a dollar character, parse_string
returns it unchanged, while parse_data - the structural resolve entry point -
returns it stripped of leading and trailing spaces and tabs; the claim's
equality resolve(s) == s therefore holds exactly when s carries no
leading or trailing space or tab. -/
theorem claim_C3 (s : List Char) (vm : VarsMap) (fm : FuncsMap) (ext : Externals)
    (fuel : Nat) (h : '$' ∉ s) :
    parse_string (fuel + 1) s vm fm ext = .ok (.vStr s) ∧
    parse_data (fuel + 2) (.vStr s) vm fm ext = .ok (.vStr (stripSpaceTab s)) := by
  have hstrip : '$' ∉ stripSpaceTab s := fun hmem => h (mem_of_mem_stripBy hmem)
  constructor
  · simp [parse_string, parseF, h]
  · simp [parse_data, parseF, hstrip]

/-- Counterexample for C3 as stated: the dollar-free string consisting of a
space and the letter a resolves, through parse_data, to the letter a alone -
not to itself. -/
theorem claim_C3_counterexample :
    parse_data 2 (.vStr (" a".data)) [] [] emptyExternals = .ok (.vStr ("a".data)) ∧
    "a".data ≠ " a".data := ⟨by rfl, by decide⟩

/-- Witness for C3 at a concrete dollar-free string. -/
theorem claim_C3_witness :
    parse_string 1 ("abc".data) [] [] emptyExternals = .ok (.vStr ("abc".data)) ∧
    parse_data 2 (.vStr ("abc".data)) [] [] emptyExternals = .ok (.vStr ("abc".data)) :=
  claim_C3 ("abc".data) [] [] emptyExternals 0 (by decide)

/-- The mutually referencing two-name mapping of the spec's non-termination
example. -/
def cycleMapping : VarsMap :=
  [(("a".data), .vStr ("$b".data)), (("b".data), .vStr ("$a".data))]

/-- Resolving a bare reference to b against an empty resolved subset raises
VariableNotFound at any sufficient fuel. -/
theorem pd_cycle_b : ∀ df : Nat,
    parse_data (df + 3) (.vStr ['$', 'b']) [] [] emptyExternals =
      .error (.variableNotFound [['b']]) := by
  intro df
  simp [parse_data, parseF, stripSpaceTab, stripBy, matchEscape, matchFunction,
    matchVariable, get_mapping_variable, lookupVar, isNameStart, isWordChar]

/-- Resolving a bare reference to a against an empty resolved subset raises
VariableNotFound at any sufficient fuel. -/
theorem pd_cycle_a : ∀ df : Nat,
    parse_data (df + 3) (.vStr ['$', 'a']) [] [] emptyExternals =
      .error (.variableNotFound [['a']]) := by
  intro df
  simp [parse_data, parseF, stripSpaceTab, stripBy, matchEscape, matchFunction,
    matchVariable, get_mapping_variable, lookupVar, isNameStart, isWordChar]

/-- One full pass over the cycle mapping makes no progress: with enough data
fuel both entries are skipped (their VariableNotFound is caught), and with
too little data fuel the budget error escapes the pass. -/
theorem onePass_cycle (df : Nat) :
    onePass df [] emptyExternals cycleMapping cycleMapping [] =
      (if df < 3 then .error .outOfFuel else .ok []) := by
  match df with
  | 0 => rfl
  | 1 => rfl
  | 2 => rfl
  | df + 3 =>
    rw [if_neg (by omega)]
    simp [onePass, cycleMapping, hasKey, lookupVar, pd_cycle_a, pd_cycle_b,
      extract_variables, regex_findall_variables, findallVarsLoop, matchEscape,
      matchVariable, isNameStart, isWordChar]

/-- C1: on the mutual cycle a -> b -> a the fixed-point loop of
parse_variables_mapping never terminates: for every pass budget and every
data-fuel budget the embedding exhausts its budget (it neither succeeds nor
reports any dependency-cycle error), because a full pass makes no progress.
The source code's own comment concedes that a loop limit is missing here. -/
theorem claim_C1 (lf df : Nat) :
    parse_variables_mapping lf df cycleMapping [] emptyExternals = .error .outOfFuel := by
  unfold parse_variables_mapping
  induction lf with
  | zero => rfl
  | succ lf ih =>
    rw [pvmLoop]
    rw [if_neg (by simp [cycleMapping])]
    rw [onePass_cycle df]
    by_cases hdf : df < 3
    · rw [if_pos hdf]
    · rw [if_neg hdf]
      exact ih

theorem hasKey_append_single (m : VarsMap) (k : List Char) (v : PyVal) (n : List Char) :
    hasKey (m ++ [(k, v)]) n = (hasKey m n || k = n) := by
  induction m with
  | nil =>
    simp only [List.nil_append, hasKey, lookupVar]
    by_cases h : k = n <;> simp [h]
  | cons p rest ih =>
    obtain ⟨k0, v0⟩ := p
    by_cases h : k0 = n <;> simp [hasKey, lookupVar, h] at ih ⊢ <;> exact ih

/-- A pass of parse_variables_mapping can never complete in the presence of
a not-yet-resolved self-referencing entry: reaching that entry raises, and
any earlier raise aborts the pass likewise. -/
theorem onePass_selfref_no_ok (df : Nat) (fm : FuncsMap) (ext : Externals)
    (full : VarsMap) (name : List Char) (value : PyVal) :
    ∀ (entries parsed : VarsMap), (name, value) ∈ entries →
      name ∈ extract_variables value → hasKey parsed name = false →
      (entries.map Prod.fst).Nodup →
      ∀ m, onePass df fm ext full entries parsed ≠ .ok m := by
  intro entries
  induction entries with
  | nil => intro parsed hmem; simp at hmem
  | cons p rest ih =>
    obtain ⟨n0, v0⟩ := p
    intro parsed hmem hself hkey hnodup m
    have hnodup' : (rest.map Prod.fst).Nodup := by
      rw [List.map_cons, List.nodup_cons] at hnodup
      exact hnodup.2
    by_cases hskip : hasKey parsed n0 = true
    · -- the head is already resolved; the self-referencing entry is behind
      have hmem' : (name, value) ∈ rest := by
        rcases List.mem_cons.mp hmem with heq | h2
        · cases heq
          rw [hskip] at hkey
          cases hkey
        · exact h2
      simp only [onePass, hskip, if_true]
      exact ih parsed hmem' hself hkey hnodup' m
    · rw [Bool.not_eq_true] at hskip
      by_cases hself0 : n0 ∈ extract_variables v0
      · -- the head itself raises VariableNotFound
        simp [onePass, hskip, hself0]
      · -- the head is not self-referencing, so the self-reference is behind
        have hmem' : (name, value) ∈ rest := by
          rcases List.mem_cons.mp hmem with heq | h2
          · cases heq
            exact absurd hself hself0
          · exact h2
        have hne : n0 ≠ name := by
          rw [List.map_cons, List.nodup_cons] at hnodup
          intro heq
          apply hnodup.1
          rw [heq]
          exact List.mem_map.mpr ⟨(name, value), hmem', rfl⟩
        simp only [onePass, hskip, if_false, ite_false, hself0]
        rcases hfilter : (extract_variables v0).filter
            (fun v => !(hasKey full v)) with _ | ⟨w, ws⟩
        swap
        · simp
        simp only [if_neg (Bool.false_ne_true), if_neg (fun h : ([] : List (List Char)) ≠ [] => h rfl)]
        cases hpd : parse_data df v0 parsed fm ext with
          | error e =>
            cases e with
            | variableNotFound ns =>
              exact ih parsed hmem' hself hkey hnodup' m
            | _ => simp
          | ok pv =>
            have hkey' : hasKey (parsed ++ [(n0, pv)]) name = false := by
              rw [hasKey_append_single, hkey]
              simp [hne]
            exact ih (parsed ++ [(n0, pv)]) hmem' hself hkey' hnodup' m

/-- C7 (amended): a self-referencing entry makes parse_variables_mapping
fail rather than resolve.  When the self-referencing entry is examined (and
it always is in the first pass) the raise is VariableNotFound naming it; in
particular, when the self-referencing entry comes first the whole call
raises VariableNotFound immediately.  An entry examined earlier may however
abort the pass with a different error first (see the counterexample), so
the mapping never resolves, but not always with VariableNotFound. -/
theorem claim_C7 :
    (∀ (name : List Char) (value : PyVal) (rest : VarsMap) (fm : FuncsMap)
        (ext : Externals) (lf df : Nat),
      name ∈ extract_variables value →
      parse_variables_mapping (lf + 1) df ((name, value) :: rest) fm ext =
        .error (.variableNotFound [name])) ∧
    (∀ (vm : VarsMap) (fm : FuncsMap) (ext : Externals) (lf df : Nat)
        (name : List Char) (value : PyVal) (m : VarsMap),
      (name, value) ∈ vm → name ∈ extract_variables value →
      (vm.map Prod.fst).Nodup →
      parse_variables_mapping lf df vm fm ext ≠ .ok m) := by
  constructor
  · intro name value rest fm ext lf df hself
    unfold parse_variables_mapping
    rw [pvmLoop]
    rw [if_neg (by simp)]
    have hfirst : onePass df fm ext ((name, value) :: rest) ((name, value) :: rest) [] =
        .error (.variableNotFound [name]) := by
      simp [onePass, hasKey, lookupVar, hself]
    rw [hfirst]
  · intro vm fm ext lf df name value m hmem hself hnodup
    unfold parse_variables_mapping
    have hne : vm ≠ [] := by
      intro h
      rw [h] at hmem
      simp at hmem
    cases lf with
    | zero =>
      rw [pvmLoop]
      rw [if_neg (fun h0 => hne (List.length_eq_zero.mp h0.symm))]
      simp
    | succ lf =>
      rw [pvmLoop]
      rw [if_neg (fun h0 => hne (List.length_eq_zero.mp h0.symm))]
      cases honep : onePass df fm ext vm vm [] with
      | error e => simp
      | ok parsed' =>
        exact absurd honep
          (onePass_selfref_no_ok df fm ext vm name value vm [] hmem hself rfl hnodup parsed')

/-- Witness for C7 (amended) at the spec's own example: the one-entry
mapping a -> dollar-a raises VariableNotFound naming a. -/
theorem claim_C7_witness :
    parse_variables_mapping 1 9 [(("a".data), .vStr ("$a".data))] [] emptyExternals =
      .error (.variableNotFound [("a".data)]) :=
  claim_C7.1 ("a".data) (.vStr ("$a".data)) [] [] emptyExternals 0 9 (by decide)

/-- A mapping containing the self-reference a -> dollar-a together with an
earlier entry whose value calls an undefined function f. -/
def c7Mapping : VarsMap :=
  [(("x".data), .vStr ("$\x7bf()\x7d".data)), (("a".data), .vStr ("$a".data))]

/-- Counterexample for C7 as stated: this mapping has a self-referencing
name, yet parse_variables_mapping raises FunctionNotFound - the earlier
entry's undefined function aborts the pass before the self-reference is
examined - so the failure is not VariableNotFound. -/
theorem claim_C7_counterexample :
    ("a".data) ∈ extract_variables (.vStr ("$a".data)) ∧
    parse_variables_mapping 7 9 c7Mapping [] emptyExternals =
      .error (.functionNotFound ("f".data)) ∧
    ∀ names, parse_variables_mapping 7 9 c7Mapping [] emptyExternals ≠
      .error (.variableNotFound names) := by
  refine ⟨by decide, by rfl, ?_⟩
  intro names h
  rw [show parse_variables_mapping 7 9 c7Mapping [] emptyExternals =
    .error (.functionNotFound ("f".data)) from rfl] at h
  simp at h

theorem pyListToList_listToPyList : ∀ l : List PyVal, pyListToList (listToPyList l) = l := by
  intro l
  induction l with
  | nil => rfl
  | cons x xs ih => simp [listToPyList, pyListToList, ih]

/-- The list branch of a single-name parameter entry over scalar items. -/
theorem paramListEntry_single (n : List Char) :
    ∀ xs : List Int, paramListEntry [n] (xs.map PyVal.vInt) =
      xs.map (fun x => [(n, PyVal.vInt x)]) := by
  intro xs
  induction xs with
  | nil => rfl
  | cons x xs ih => simp [paramListEntry, zipToDict, assocAssign, ih]

theorem flatMap_singleton_id (l : List VarsMap) : l.flatMap (fun d => [d]) = l := by
  induction l with
  | nil => rfl
  | cons x xs ih =>
    simp [List.flatMap] at ih ⊢
    exact ih

/-- The modelled cartesian product of two entry lists is the nested loop
with the left factor outermost. -/
theorem gcp_two (la lb : List VarsMap) :
    gen_cartesian_product [la, lb] =
      la.flatMap (fun d => lb.map (fun m => dictUpdateAll d m)) := by
  have h1 : gen_cartesian_product [lb] = lb := by
    show lb.flatMap (fun d => [dictUpdateAll d []]) = lb
    have : ∀ d : VarsMap, dictUpdateAll d [] = d := fun d => rfl
    simp only [this]
    exact flatMap_singleton_id lb
  show la.flatMap (fun d => (gen_cartesian_product [lb]).map (fun m => dictUpdateAll d m)) =
    la.flatMap (fun d => lb.map (fun m => dictUpdateAll d m))
  rw [h1]

theorem flatMap_map_left (xs : List Int) (F : Int → VarsMap) (G : VarsMap → List VarsMap) :
    (xs.map F).flatMap G = xs.flatMap (fun x => G (F x)) := by
  induction xs with
  | nil => rfl
  | cons x xs ih =>
    simp [List.flatMap] at ih ⊢
    exact ih

/-- A literal-list parameter entry is zipped against the dash-separated
name list (branch one of parse_parameters). -/
theorem oneParamEntry_list (df : Nat) (fm : FuncsMap) (ext : Externals)
    (pname : List Char) (l : List PyVal) :
    oneParamEntry df fm ext pname (.vList (listToPyList l)) =
      .ok (paramListEntry (splitOnChar '-' pname) l) := by
  simp [oneParamEntry, pyListToList_listToPyList]

/-- C8: parameter expansion is the cartesian product across the top-level
entries in declaration order with the left factor varying slowest; in
particular two literal scalar lists under names a and b expand to the
nested-loop product of one-name dicts merged pairwise, and the concrete
input a -> [1,2], b -> [10,20] yields exactly the four combinations in
that order. -/
theorem claim_C8 :
    (∀ (df : Nat) (fm : FuncsMap) (ext : Externals),
      parse_parameters df
        [(['a'], .vList (listToPyList [.vInt 1, .vInt 2])),
         (['b'], .vList (listToPyList [.vInt 10, .vInt 20]))] fm ext =
      .ok [[(['a'], .vInt 1), (['b'], .vInt 10)],
           [(['a'], .vInt 1), (['b'], .vInt 20)],
           [(['a'], .vInt 2), (['b'], .vInt 10)],
           [(['a'], .vInt 2), (['b'], .vInt 20)]]) ∧
    (∀ (xs ys : List Int) (df : Nat) (fm : FuncsMap) (ext : Externals),
      parse_parameters df
        [(['a'], .vList (listToPyList (xs.map PyVal.vInt))),
         (['b'], .vList (listToPyList (ys.map PyVal.vInt)))] fm ext =
      .ok (xs.flatMap (fun x => ys.map (fun y =>
        [(['a'], PyVal.vInt x), (['b'], PyVal.vInt y)])))) := by
  constructor
  · intro df fm ext
    rfl
  · intro xs ys df fm ext
    have h1 : oneParamEntry df fm ext ['a'] (.vList (listToPyList (xs.map PyVal.vInt))) =
        .ok (xs.map (fun x => [(['a'], PyVal.vInt x)])) := by
      rw [oneParamEntry_list]
      rw [show splitOnChar '-' ['a'] = [['a']] from rfl]
      rw [paramListEntry_single]
    have h2 : oneParamEntry df fm ext ['b'] (.vList (listToPyList (ys.map PyVal.vInt))) =
        .ok (ys.map (fun y => [(['b'], PyVal.vInt y)])) := by
      rw [oneParamEntry_list]
      rw [show splitOnChar '-' ['b'] = [['b']] from rfl]
      rw [paramListEntry_single]
    unfold parse_parameters
    simp only [paramEntryLists, h1, h2]
    simp only [Except.ok.injEq]
    rw [gcp_two, flatMap_map_left]
    congr 1
    funext x
    rw [List.map_map]
    congr 1

theorem nameStart_ne_dollar {c : Char} (h : isNameStart c = true) : c ≠ '$' := by
  intro hc
  subst hc
  revert h
  decide

theorem nameStart_ne_lbrace {c : Char} (h : isNameStart c = true) : c ≠ '\x7b' := by
  intro hc
  subst hc
  revert h
  decide

theorem all_takeWhile_prop (p : Char → Bool) (l : List Char) :
    ∀ x ∈ l.takeWhile p, p x = true := by
  induction l with
  | nil => intro x hx; simp [List.takeWhile] at hx
  | cons a as ih =>
    intro x hx
    rw [List.takeWhile_cons] at hx
    by_cases ha : p a = true
    · rw [if_pos ha] at hx
      rcases List.mem_cons.mp hx with rfl | h2
      · exact ha
      · exact ih x h2
    · rw [if_neg ha] at hx
      simp at hx

theorem matchEscape_nameStart {c : Char} (cs : List Char) (h : isNameStart c = true) :
    matchEscape ('$' :: c :: cs) = none := by
  simp [matchEscape, nameStart_ne_dollar h]

theorem matchEscape_lbrace (rest : List Char) :
    matchEscape ('$' :: '\x7b' :: rest) = none := by
  have hne : ('\x7b' : Char) ≠ '$' := by decide
  simp [matchEscape, hne]

theorem matchFunction_plain_none {c : Char} (cs : List Char) (h : isNameStart c = true) :
    matchFunction ('$' :: c :: cs) = none := by
  simp [matchFunction, nameStart_ne_lbrace h]


theorem matchVariable_plain {c : Char} {cs : List Char} (hc : isNameStart c = true)
    (hcs : ∀ x ∈ cs, isWordChar x = true) :
    matchVariable ('$' :: c :: cs) = some (c :: cs, []) := by
  rw [matchVariable.eq_1]
  simp [nameStart_ne_lbrace hc, hc,
    List.takeWhile_eq_self_iff.mpr hcs, List.dropWhile_eq_nil_iff.mpr hcs]

theorem matchVariable_brace {c : Char} {cs : List Char} (hc : isNameStart c = true)
    (hcs : ∀ x ∈ cs, isWordChar x = true) :
    matchVariable ('$' :: '\x7b' :: c :: (cs ++ ['\x7d'])) = some (c :: cs, []) := by
  have hdw : (cs ++ ['\x7d']).dropWhile isWordChar = ['\x7d'] :=
    listDropWhileStop cs '\x7d' [] hcs (by decide)
  have htw : (cs ++ ['\x7d']).takeWhile isWordChar = cs :=
    listTakeWhileStop cs '\x7d' [] hcs (by decide)
  rw [matchVariable.eq_1]
  simp [matchBraceName, matchCloseBrace, hc, hdw, htw]

theorem matchFunction_brace_none {c : Char} {cs : List Char} (hc : isNameStart c = true)
    (hcs : ∀ x ∈ cs, isWordChar x = true) :
    matchFunction ('$' :: '\x7b' :: c :: (cs ++ ['\x7d'])) = none := by
  have hdw : (cs ++ ['\x7d']).dropWhile isWordChar = ['\x7d'] :=
    listDropWhileStop cs '\x7d' [] hcs (by decide)
  have hne : ('\x7d' : Char) ≠ '(' := by decide
  rw [matchFunction.eq_1]
  simp [matchFuncName, matchFuncParams, hc, hdw, hne]

theorem matchFunction_form {c : Char} {cs params : List Char} (hc : isNameStart c = true)
    (hcs : ∀ x ∈ cs, isWordChar x = true) (hp : ∀ x ∈ params, isParamChar x = true) :
    matchFunction ('$' :: '\x7b' :: c :: (cs ++ '(' :: (params ++ [')', '\x7d']))) =
      some (c :: cs, params, []) := by
  have hdw : (cs ++ '(' :: (params ++ [')', '\x7d'])).dropWhile isWordChar =
      '(' :: (params ++ [')', '\x7d']) :=
    listDropWhileStop cs '(' (params ++ [')', '\x7d']) hcs (by decide)
  have htw : (cs ++ '(' :: (params ++ [')', '\x7d'])).takeWhile isWordChar = cs :=
    listTakeWhileStop cs '(' (params ++ [')', '\x7d']) hcs (by decide)
  have hdw2 : (params ++ [')', '\x7d']).dropWhile isParamChar = [')', '\x7d'] :=
    listDropWhileStop params ')' ['\x7d'] hp (by decide)
  have htw2 : (params ++ [')', '\x7d']).takeWhile isParamChar = params :=
    listTakeWhileStop params ')' ['\x7d'] hp (by decide)
  rw [matchFunction.eq_1]
  simp [matchFuncName, matchFuncParams, matchFuncClose, hc, hdw, htw, hdw2, htw2]

theorem matchCloseBrace_sound {c : Char} {nt rest name r : List Char}
    (h : matchCloseBrace c nt rest = some (name, r)) : name = c :: nt := by
  rcases rest with _ | ⟨d, r2⟩
  · rw [show matchCloseBrace c nt [] = none from rfl] at h
    exact Option.noConfusion h
  · rw [matchCloseBrace.eq_1] at h
    by_cases hd : d = '\x7d'
    · rw [if_pos hd] at h
      simp only [Option.some.injEq, Prod.mk.injEq] at h
      exact h.1.symm
    · rw [if_neg hd] at h
      exact Option.noConfusion h

theorem matchBraceName_sound {cs name r : List Char}
    (h : matchBraceName cs = some (name, r)) : validNameB name = true := by
  rcases cs with _ | ⟨c, cs2⟩
  · rw [show matchBraceName [] = none from rfl] at h
    exact Option.noConfusion h
  · rw [matchBraceName.eq_1] at h
    by_cases hc : isNameStart c = true
    · rw [if_pos hc] at h
      rw [matchCloseBrace_sound h]
      simp [validNameB, hc, List.all_eq_true]
    · rw [if_neg hc] at h
      exact Option.noConfusion h

theorem matchVariable_sound {s name r : List Char}
    (h : matchVariable s = some (name, r)) : validNameB name = true := by
  rcases s with _ | ⟨a, _ | ⟨b, cs⟩⟩
  · rw [show matchVariable [] = none from rfl] at h
    exact Option.noConfusion h
  · rw [show matchVariable [a] = none from rfl] at h
    exact Option.noConfusion h
  · rw [matchVariable.eq_1] at h
    by_cases ha : a = '$'
    · rw [if_pos ha] at h
      by_cases hb : b = '\x7b'
      · rw [if_pos hb] at h
        exact matchBraceName_sound h
      · rw [if_neg hb] at h
        by_cases hbn : isNameStart b = true
        · rw [if_pos hbn] at h
          simp only [Option.some.injEq, Prod.mk.injEq] at h
          rw [← h.1]
          simp [validNameB, hbn, List.all_eq_true]
        · rw [if_neg hbn] at h
          exact Option.noConfusion h
    · rw [if_neg ha] at h
      exact Option.noConfusion h

theorem matchFuncClose_sound {fn ps rest fn2 ps2 r : List Char}
    (h : matchFuncClose fn ps rest = some (fn2, ps2, r)) : fn2 = fn ∧ ps2 = ps := by
  rcases rest with _ | ⟨e, _ | ⟨f, r2⟩⟩
  · rw [show matchFuncClose fn ps [] = none from rfl] at h
    exact Option.noConfusion h
  · rw [show matchFuncClose fn ps [e] = none from rfl] at h
    exact Option.noConfusion h
  · rw [matchFuncClose.eq_1] at h
    by_cases hef : e = ')' ∧ f = '\x7d'
    · rw [if_pos hef] at h
      simp only [Option.some.injEq, Prod.mk.injEq] at h
      exact ⟨h.1.symm, h.2.1.symm⟩
    · rw [if_neg hef] at h
      exact Option.noConfusion h

theorem matchFuncParams_sound {fn after fn2 ps2 r : List Char}
    (h : matchFuncParams fn after = some (fn2, ps2, r)) :
    fn2 = fn ∧ ps2.all isParamChar = true := by
  rcases after with _ | ⟨d, ps⟩
  · rw [show matchFuncParams fn [] = none from rfl] at h
    exact Option.noConfusion h
  · rw [matchFuncParams.eq_1] at h
    by_cases hd : d = '('
    · rw [if_pos hd] at h
      obtain ⟨h1, h2⟩ := matchFuncClose_sound h
      refine ⟨h1, ?_⟩
      rw [h2]
      simp [List.all_eq_true]
    · rw [if_neg hd] at h
      exact Option.noConfusion h

theorem matchFuncName_sound {cs fn2 ps2 r : List Char}
    (h : matchFuncName cs = some (fn2, ps2, r)) :
    validNameB fn2 = true ∧ ps2.all isParamChar = true := by
  rcases cs with _ | ⟨c, cs2⟩
  · rw [show matchFuncName [] = none from rfl] at h
    exact Option.noConfusion h
  · rw [matchFuncName.eq_1] at h
    by_cases hc : isNameStart c = true
    · rw [if_pos hc] at h
      obtain ⟨h1, h2⟩ := matchFuncParams_sound h
      refine ⟨?_, h2⟩
      rw [h1]
      simp [validNameB, hc, List.all_eq_true]
    · rw [if_neg hc] at h
      exact Option.noConfusion h

theorem matchFunction_sound {s fn ps r : List Char}
    (h : matchFunction s = some (fn, ps, r)) :
    validNameB fn = true ∧ ps.all isParamChar = true := by
  rcases s with _ | ⟨a, _ | ⟨b, cs⟩⟩
  · rw [show matchFunction [] = none from rfl] at h
    exact Option.noConfusion h
  · rw [show matchFunction [a] = none from rfl] at h
    exact Option.noConfusion h
  · rw [matchFunction.eq_1] at h
    by_cases hab : a = '$' ∧ b = '\x7b'
    · rw [if_pos hab] at h
      exact matchFuncName_sound h
    · rw [if_neg hab] at h
      exact Option.noConfusion h

/-- The exact-variable early return of parse_string: a raw string that is
exactly one bare variable reference resolves to the looked-up native value. -/
theorem parse_string_var_plain {c : Char} {cs : List Char} (fuel : Nat)
    (vm : VarsMap) (fm : FuncsMap) (ext : Externals) (v : PyVal)
    (hc : isNameStart c = true) (hcs : ∀ x ∈ cs, isWordChar x = true)
    (hlookup : lookupVar vm (c :: cs) = some v) :
    parse_string (fuel + 2) ('$' :: c :: cs) vm fm ext = .ok v := by
  unfold parse_string
  simp [parseF, List.dropWhile_cons, List.takeWhile_cons,
    matchEscape_nameStart cs hc, matchFunction_plain_none cs hc,
    matchVariable_plain hc hcs, get_mapping_variable, hlookup, varPlainForm]

/-- The exact-variable early return of parse_string, braced form. -/
theorem parse_string_var_brace {c : Char} {cs : List Char} (fuel : Nat)
    (vm : VarsMap) (fm : FuncsMap) (ext : Externals) (v : PyVal)
    (hc : isNameStart c = true) (hcs : ∀ x ∈ cs, isWordChar x = true)
    (hlookup : lookupVar vm (c :: cs) = some v) :
    parse_string (fuel + 2) (varBraceForm (c :: cs)) vm fm ext = .ok v := by
  unfold parse_string
  simp only [varBraceForm, List.cons_append]
  simp [parseF, List.dropWhile_cons, List.takeWhile_cons,
    matchEscape_lbrace, matchFunction_brace_none hc hcs,
    matchVariable_brace hc hcs, get_mapping_variable, hlookup,
    varPlainForm, varBraceForm]

/-- The exact-function-call early return of parse_string: a raw string that
is exactly one function call returns the call's native result. -/
theorem parse_string_func_exact {c : Char} {cs params : List Char} (fuel : Nat)
    (vm : VarsMap) (fm : FuncsMap) (ext : Externals) (f : PyFunc)
    (meta : FuncMeta) (pargs pkwargs v : PyVal)
    (hc : isNameStart c = true) (hcs : ∀ x ∈ cs, isWordChar x = true)
    (hp : ∀ x ∈ params, isParamChar x = true)
    (hgm : get_mapping_function (c :: cs) fm ext = .ok f)
    (hpp : parse_function_params params = .ok meta)
    (hargs : parseF fuel (.plist (listToPyList meta.args)) vm fm ext = .ok pargs)
    (hkw : parseF fuel (.ppairs (strPairsToPyPairs meta.kwargs) .nil) vm fm ext = .ok pkwargs)
    (hcall : callFunc f pargs pkwargs = .ok v) :
    parse_string (fuel + 2) (funcRawString (c :: cs) params) vm fm ext = .ok v := by
  unfold parse_string
  simp only [funcRawString, List.cons_append]
  simp [parseF, List.dropWhile_cons, List.takeWhile_cons,
    matchEscape_lbrace, matchFunction_form hc hcs hp,
    hgm, hpp, hargs, hkw, hcall, funcRawString]

/-- Inside the scanning loop of parse_string, any successful result that is
not a string can only have come from one of the whole-string early returns,
whose guards pin the raw string to exactly one variable reference or one
function call. -/
theorem ploop_nonstring_single (vm : VarsMap) (fm : FuncsMap) (ext : Externals) :
    ∀ (fuel : Nat) (raw rem acc : List Char) (v : PyVal),
      parseF fuel (.ploop raw rem acc) vm fm ext = .ok v →
      isStrVal v = false → isSingleTemplate raw := by
  intro fuel
  induction fuel with
  | zero =>
    intro raw rem acc v h _
    rw [show parseF 0 (.ploop raw rem acc) vm fm ext = .error .outOfFuel from rfl] at h
    exact Except.noConfusion h
  | succ n ih =>
    intro raw rem acc v h hv
    rcases rem with _ | ⟨c, cs⟩
    · rw [show parseF (n + 1) (.ploop raw [] acc) vm fm ext = .ok (.vStr acc) from rfl] at h
      simp only [Except.ok.injEq] at h
      rw [← h] at hv
      simp [isStrVal] at hv
    · rw [parseF] at h
      cases hme : matchEscape (c :: cs) with
      | some rs =>
        simp only [hme] at h
        exact ih raw rs (acc ++ ['$']) v h hv
      | none =>
        simp only [hme] at h
        cases hmf : matchFunction (c :: cs) with
        | some t =>
          obtain ⟨fn, ps, rs⟩ := t
          simp only [hmf] at h
          cases hgm : get_mapping_function fn fm ext with
          | error e => simp only [hgm] at h; exact Except.noConfusion h
          | ok f =>
            simp only [hgm] at h
            cases hpp : parse_function_params ps with
            | error e => simp only [hpp] at h; exact Except.noConfusion h
            | ok meta =>
              simp only [hpp] at h
              cases hargs : parseF n (.plist (listToPyList meta.args)) vm fm ext with
              | error e => simp only [hargs] at h; exact Except.noConfusion h
              | ok pargs =>
                simp only [hargs] at h
                cases hkw : parseF n (.ppairs (strPairsToPyPairs meta.kwargs) .nil) vm fm ext with
                | error e => simp only [hkw] at h; exact Except.noConfusion h
                | ok pkwargs =>
                  simp only [hkw] at h
                  cases hcall : callFunc f pargs pkwargs with
                  | error e => simp only [hcall] at h; exact Except.noConfusion h
                  | ok v0 =>
                    simp only [hcall] at h
                    by_cases hraw : funcRawString fn ps = raw
                    · right
                      obtain ⟨h1, h2⟩ := matchFunction_sound hmf
                      exact ⟨fn, ps, h1, h2, hraw.symm⟩
                    · rw [if_neg hraw] at h
                      exact ih raw rs (acc ++ pyStr v0) v h hv
        | none =>
          simp only [hmf] at h
          cases hmv : matchVariable (c :: cs) with
          | some t =>
            obtain ⟨nm, rs⟩ := t
            simp only [hmv] at h
            cases hgv : get_mapping_variable nm vm with
            | error e => simp only [hgv] at h; exact Except.noConfusion h
            | ok w =>
              simp only [hgv] at h
              by_cases hraw : varPlainForm nm = raw ∨ varBraceForm nm = raw
              · left
                refine ⟨nm, matchVariable_sound hmv, ?_⟩
                rcases hraw with h1 | h1
                · exact Or.inl h1.symm
                · exact Or.inr h1.symm
              · rw [if_neg hraw] at h
                exact ih raw rs (acc ++ pyStr w) v h hv
          | none =>
            simp only [hmv] at h
            cases hdw : cs.dropWhile (· ≠ '$') with
            | nil =>
              simp only [hdw] at h
              simp only [Except.ok.injEq] at h
              rw [← h] at hv
              simp [isStrVal] at hv
            | cons d ds =>
              simp only [hdw] at h
              exact ih raw (d :: ds) (acc ++ c :: cs.takeWhile (· ≠ '$')) v h hv

/-- Outside the loop: a non-string result of parse_string implies the raw
string was exactly one variable reference or one function call. -/
theorem parse_string_nonstring_single (vm : VarsMap) (fm : FuncsMap) (ext : Externals)
    (fuel : Nat) (raw : List Char) (v : PyVal)
    (h : parse_string fuel raw vm fm ext = .ok v) (hv : isStrVal v = false) :
    isSingleTemplate raw := by
  cases fuel with
  | zero =>
    rw [show parse_string 0 raw vm fm ext = .error .outOfFuel from rfl] at h
    exact Except.noConfusion h
  | succ n =>
    unfold parse_string at h
    rw [parseF] at h
    by_cases hd : '$' ∈ raw
    · rw [if_pos hd] at h
      exact ploop_nonstring_single vm fm ext n raw _ _ v h hv
    · rw [if_neg hd] at h
      simp only [Except.ok.injEq] at h
      rw [← h] at hv
      simp [isStrVal] at hv

theorem matchEscape_escape (t : List Char) : matchEscape ('$' :: '$' :: t) = some t := by
  simp [matchEscape]

theorem matchEscape_head_ne {c : Char} (t : List Char) (h : c ≠ '$') :
    matchEscape (c :: t) = none := by
  rcases t with _ | ⟨b, t2⟩
  · rfl
  · simp [matchEscape, h]

theorem matchVariable_head_ne {c : Char} (t : List Char) (h : c ≠ '$') :
    matchVariable (c :: t) = none := by
  rcases t with _ | ⟨b, t2⟩
  · rfl
  · simp [matchVariable, h]

theorem matchFunction_head_ne {c : Char} (t : List Char) (h : c ≠ '$') :
    matchFunction (c :: t) = none := by
  rcases t with _ | ⟨b, t2⟩
  · rfl
  · simp [matchFunction, h]

/-- Bare-variable match with an arbitrary continuation that cannot extend
the name (empty, or starting with a non-word character). -/
theorem matchVariable_bare_suf {c : Char} {cs suf : List Char} (hc : isNameStart c = true)
    (hcs : ∀ x ∈ cs, isWordChar x = true)
    (hsuf : suf = [] ∨ ∃ d ds, suf = d :: ds ∧ isWordChar d = false) :
    matchVariable ('$' :: c :: (cs ++ suf)) = some (c :: cs, suf) := by
  have htw : (cs ++ suf).takeWhile isWordChar = cs := by
    rcases hsuf with rfl | ⟨d, ds, rfl, hd⟩
    · rw [List.append_nil]
      exact List.takeWhile_eq_self_iff.mpr hcs
    · exact listTakeWhileStop cs d ds hcs hd
  have hdw : (cs ++ suf).dropWhile isWordChar = suf := by
    rcases hsuf with rfl | ⟨d, ds, rfl, hd⟩
    · rw [List.append_nil]
      exact List.dropWhile_eq_nil_iff.mpr hcs
    · exact listDropWhileStop cs d ds hcs hd
  rw [matchVariable.eq_1]
  simp [nameStart_ne_lbrace hc, hc, htw, hdw]

/-- Braced-variable match with an arbitrary continuation after the closing
brace. -/
theorem matchVariable_brace_suf {c : Char} {cs suf : List Char} (hc : isNameStart c = true)
    (hcs : ∀ x ∈ cs, isWordChar x = true) :
    matchVariable ('$' :: '\x7b' :: c :: (cs ++ '\x7d' :: suf)) = some (c :: cs, suf) := by
  have hdw : (cs ++ '\x7d' :: suf).dropWhile isWordChar = '\x7d' :: suf :=
    listDropWhileStop cs '\x7d' suf hcs (by decide)
  have htw : (cs ++ '\x7d' :: suf).takeWhile isWordChar = cs :=
    listTakeWhileStop cs '\x7d' suf hcs (by decide)
  rw [matchVariable.eq_1]
  simp [matchBraceName, matchCloseBrace, hc, hdw, htw]

theorem matchFunction_brace_none_suf {c : Char} {cs suf : List Char}
    (hc : isNameStart c = true) (hcs : ∀ x ∈ cs, isWordChar x = true) :
    matchFunction ('$' :: '\x7b' :: c :: (cs ++ '\x7d' :: suf)) = none := by
  have hdw : (cs ++ '\x7d' :: suf).dropWhile isWordChar = '\x7d' :: suf :=
    listDropWhileStop cs '\x7d' suf hcs (by decide)
  have hne : ('\x7d' : Char) ≠ '(' := by decide
  rw [matchFunction.eq_1]
  simp [matchFuncName, matchFuncParams, hc, hdw, hne]

/-- Function-call match with an arbitrary continuation after the closing
parenthesis-brace. -/
theorem matchFunction_form_suf {c : Char} {cs params suf : List Char}
    (hc : isNameStart c = true) (hcs : ∀ x ∈ cs, isWordChar x = true)
    (hp : ∀ x ∈ params, isParamChar x = true) :
    matchFunction ('$' :: '\x7b' :: c :: (cs ++ '(' :: (params ++ ')' :: '\x7d' :: suf))) =
      some (c :: cs, params, suf) := by
  have hdw : (cs ++ '(' :: (params ++ ')' :: '\x7d' :: suf)).dropWhile isWordChar =
      '(' :: (params ++ ')' :: '\x7d' :: suf) :=
    listDropWhileStop cs '(' _ hcs (by decide)
  have htw : (cs ++ '(' :: (params ++ ')' :: '\x7d' :: suf)).takeWhile isWordChar = cs :=
    listTakeWhileStop cs '(' _ hcs (by decide)
  have hdw2 : (params ++ ')' :: '\x7d' :: suf).dropWhile isParamChar = ')' :: '\x7d' :: suf :=
    listDropWhileStop params ')' _ hp (by decide)
  have htw2 : (params ++ ')' :: '\x7d' :: suf).takeWhile isParamChar = params :=
    listTakeWhileStop params ')' _ hp (by decide)
  rw [matchFunction.eq_1]
  simp [matchFuncName, matchFuncParams, matchFuncClose, hc, hdw, htw, hdw2, htw2]

/-- A decomposition of a template string into segments: a literal run, the
dollar-dollar escape, a variable reference (bare or braced) annotated with
the value it resolves to, or a function call annotated with the value it
resolves to. -/
inductive TemplateSeg where
  | lit : List Char → TemplateSeg
  | esc : TemplateSeg
  | subVar : List Char → Bool → PyVal → TemplateSeg
  | subFunc : List Char → List Char → PyVal → TemplateSeg

/-- The raw text of one segment. -/
def flattenSeg : TemplateSeg → List Char
  | .lit s => s
  | .esc => ['$', '$']
  | .subVar n braced _ => if braced then varBraceForm n else varPlainForm n
  | .subFunc fn ps _ => funcRawString fn ps

/-- The raw text of a segment list, in order. -/
def flattenSegs : List TemplateSeg → List Char
  | [] => []
  | seg :: rest => flattenSeg seg ++ flattenSegs rest

/-- The rendered text of one segment: literal runs verbatim, the escape as a
single dollar, substitutions as the stringified substituted value. -/
def renderSeg : TemplateSeg → List Char
  | .lit s => s
  | .esc => ['$']
  | .subVar _ _ v => pyStr v
  | .subFunc _ _ v => pyStr v

/-- The rendered text of a segment list, in order. -/
def renderSegs : List TemplateSeg → List Char
  | [] => []
  | seg :: rest => renderSeg seg ++ renderSegs rest

/-- The segment list does not begin with a literal run. -/
def noLitHead : List TemplateSeg → Bool
  | .lit _ :: _ => false
  | _ => true

/-- Well-formedness of a decomposition: literal runs are nonempty and
dollar-free, no two literal runs are adjacent, names are valid identifiers,
parameter strings use the parameter character class, and a literal run that
directly follows a bare variable reference starts with a non-word character
(so the maximal-munch name match ends exactly at the segment boundary).  The
Boolean argument records whether the previous segment was a bare variable
reference. -/
def wfSegs : Bool → List TemplateSeg → Prop
  | _, [] => True
  | prevBare, .lit s :: rest =>
      s ≠ [] ∧ '$' ∉ s ∧
      (prevBare = true → ∃ c cs, s = c :: cs ∧ isWordChar c = false) ∧
      noLitHead rest = true ∧ wfSegs false rest
  | _, .esc :: rest => wfSegs false rest
  | _, .subVar n braced _ :: rest => validNameB n = true ∧ wfSegs (!braced) rest
  | _, .subFunc fn ps _ :: rest =>
      validNameB fn = true ∧ ps.all isParamChar = true ∧ wfSegs false rest

/-- The evaluation facts one segment needs at a given loop fuel: a variable
segment's annotation is its looked-up value, and a function segment's
annotation is the result of the full call pipeline (function resolution,
parameter parsing, recursive resolution of arguments and keyword arguments
at the given fuel, then the call). -/
def SegHyp (vm : VarsMap) (fm : FuncsMap) (ext : Externals) (fuel : Nat) :
    TemplateSeg → Prop
  | .lit _ => True
  | .esc => True
  | .subVar n _ v => lookupVar vm n = some v
  | .subFunc fn ps v => ∃ f meta pargs pkwargs,
      get_mapping_function fn fm ext = .ok f ∧
      parse_function_params ps = .ok meta ∧
      parseF fuel (.plist (listToPyList meta.args)) vm fm ext = .ok pargs ∧
      parseF fuel (.ppairs (strPairsToPyPairs meta.kwargs) .nil) vm fm ext = .ok pkwargs ∧
      callFunc f pargs pkwargs = .ok v

/-- The segment evaluation facts threaded through the loop fuel: each
scanning step consumes one fuel unit, and a segment processed at fuel n+1
resolves its function arguments at fuel n. -/
def SegsSpec (vm : VarsMap) (fm : FuncsMap) (ext : Externals) :
    Nat → List TemplateSeg → Prop
  | 0, _ => False
  | _ + 1, [] => True
  | fuel + 1, seg :: rest => SegHyp vm fm ext fuel seg ∧ SegsSpec vm fm ext fuel rest

theorem flattenSegs_cons (seg : TemplateSeg) (rest : List TemplateSeg) :
    flattenSegs (seg :: rest) = flattenSeg seg ++ flattenSegs rest := by
  rw [flattenSegs]

theorem flattenSegs_head_dollar (seg : TemplateSeg) (rest : List TemplateSeg)
    (hnl : noLitHead (seg :: rest) = true) :
    ∃ t, flattenSegs (seg :: rest) = '$' :: t := by
  cases seg with
  | lit s => simp [noLitHead] at hnl
  | esc => exact ⟨'$' :: flattenSegs rest, by simp [flattenSegs, flattenSeg]⟩
  | subVar n braced v =>
    cases braced with
    | false =>
      exact ⟨n ++ flattenSegs rest, by simp [flattenSegs, flattenSeg, varPlainForm]⟩
    | true =>
      exact ⟨'\x7b' :: ((n ++ ['\x7d']) ++ flattenSegs rest),
        by simp [flattenSegs, flattenSeg, varBraceForm]⟩
  | subFunc fn ps v =>
    exact ⟨'\x7b' :: ((fn ++ '(' :: (ps ++ [')', '\x7d'])) ++ flattenSegs rest),
      by simp [flattenSegs, flattenSeg, funcRawString]⟩

theorem flattenSegs_head_nonword (rest : List TemplateSeg) (hwf : wfSegs true rest) :
    flattenSegs rest = [] ∨
      ∃ d ds, flattenSegs rest = d :: ds ∧ isWordChar d = false := by
  cases rest with
  | nil => exact Or.inl (by simp [flattenSegs])
  | cons seg r =>
    right
    cases seg with
    | lit s =>
      simp only [wfSegs] at hwf
      obtain ⟨hne, hds, hw, hnl, hrest⟩ := hwf
      obtain ⟨c, cs, rfl, hcw⟩ := hw trivial
      exact ⟨c, cs ++ flattenSegs r, by simp [flattenSegs, flattenSeg], hcw⟩
    | esc =>
      exact ⟨'$', '$' :: flattenSegs r, by simp [flattenSegs, flattenSeg], by decide⟩
    | subVar n braced v =>
      cases braced with
      | false =>
        exact ⟨'$', n ++ flattenSegs r,
          by simp [flattenSegs, flattenSeg, varPlainForm], by decide⟩
      | true =>
        exact ⟨'$', '\x7b' :: ((n ++ ['\x7d']) ++ flattenSegs r),
          by simp [flattenSegs, flattenSeg, varBraceForm], by decide⟩
    | subFunc fn ps v =>
      exact ⟨'$', '\x7b' :: ((fn ++ '(' :: (ps ++ [')', '\x7d'])) ++ flattenSegs r),
        by simp [flattenSegs, flattenSeg, funcRawString], by decide⟩

/-- A raw string not starting with a dollar is never a whole-string
template. -/
theorem not_singleTemplate_of_head {c : Char} (t : List Char) (hc : c ≠ '$') :
    ¬ isSingleTemplate (c :: t) := by
  intro h
  rcases h with ⟨name, _, h1 | h1⟩ | ⟨fn, ps, _, _, h1⟩
  · rw [varPlainForm] at h1
    injection h1 with hh _
    exact hc hh
  · rw [varBraceForm] at h1
    injection h1 with hh _
    exact hc hh
  · rw [funcRawString] at h1
    injection h1 with hh _
    exact hc hh

theorem dropWhile_ne_dollar_stop (xs t : List Char) (hxs : '$' ∉ xs) :
    (xs ++ '$' :: t).dropWhile (· ≠ '$') = '$' :: t :=
  listDropWhileStop xs '$' t
    (fun c hc => decide_eq_true (fun he => hxs (he ▸ hc)))
    (by decide)

theorem takeWhile_ne_dollar_stop (xs t : List Char) (hxs : '$' ∉ xs) :
    (xs ++ '$' :: t).takeWhile (· ≠ '$') = xs :=
  listTakeWhileStop xs '$' t
    (fun c hc => decide_eq_true (fun he => hxs (he ▸ hc)))
    (by decide)

theorem dropWhile_ne_dollar_nil (xs : List Char) (hxs : '$' ∉ xs) :
    xs.dropWhile (· ≠ '$') = [] :=
  List.dropWhile_eq_nil_iff.mpr
    (fun c hc => decide_eq_true (fun he => hxs (he ▸ hc)))

/-- The scanning loop of parse_string renders a well-formed segment
decomposition by in-order concatenation onto the accumulator: literal runs
verbatim, escapes as one dollar, substitutions as their stringified values,
provided the whole raw string is not a single whole-string template (which
would trigger a native-value early return). -/
theorem ploop_segs (vm : VarsMap) (fm : FuncsMap) (ext : Externals)
    (raw : List Char) (hnot : ¬ isSingleTemplate raw) :
    ∀ (segs : List TemplateSeg) (fuel : Nat) (acc : List Char) (flag : Bool),
      wfSegs flag segs → SegsSpec vm fm ext fuel segs →
      parseF fuel (.ploop raw (flattenSegs segs) acc) vm fm ext =
        .ok (.vStr (acc ++ renderSegs segs)) := by
  intro segs
  induction segs with
  | nil =>
    intro fuel acc flag _ hspec
    rcases fuel with _ | n
    · exact absurd hspec (by simp [SegsSpec])
    · rw [show flattenSegs ([] : List TemplateSeg) = [] by simp [flattenSegs]]
      rw [show parseF (n + 1) (.ploop raw [] acc) vm fm ext = .ok (.vStr acc) from rfl]
      rw [show renderSegs ([] : List TemplateSeg) = [] by simp [renderSegs]]
      rw [List.append_nil]
  | cons seg rest ih =>
    intro fuel acc flag hwf hspec
    rcases fuel with _ | n
    · exact absurd hspec (by simp [SegsSpec])
    · simp only [SegsSpec] at hspec
      obtain ⟨hhyp, hrest⟩ := hspec
      cases seg with
      | lit s =>
        simp only [wfSegs] at hwf
        obtain ⟨hne, hds, hword, hnl, hwrest⟩ := hwf
        rcases s with _ | ⟨c, cs⟩
        · exact absurd rfl hne
        · have hc2 : c ≠ '$' := by
            intro he
            subst he
            exact hds (List.mem_cons_self _ _)
          have hcs2 : '$' ∉ cs := fun hmem => hds (List.mem_cons_of_mem _ hmem)
          rcases rest with _ | ⟨seg2, rest2⟩
          · have hflat : flattenSegs [TemplateSeg.lit (c :: cs)] = c :: cs := by
              simp [flattenSegs, flattenSeg]
            rw [hflat, parseF]
            simp only [matchEscape_head_ne cs hc2, matchFunction_head_ne cs hc2,
              matchVariable_head_ne cs hc2, dropWhile_ne_dollar_nil cs hcs2]
            simp [renderSegs, renderSeg]
          · obtain ⟨t, ht⟩ := flattenSegs_head_dollar seg2 rest2 hnl
            have hflat : flattenSegs (TemplateSeg.lit (c :: cs) :: seg2 :: rest2) =
                c :: (cs ++ '$' :: t) := by
              rw [flattenSegs_cons, ht]
              simp [flattenSeg]
            rw [hflat, parseF]
            simp only [matchEscape_head_ne (cs ++ '$' :: t) hc2,
              matchFunction_head_ne (cs ++ '$' :: t) hc2,
              matchVariable_head_ne (cs ++ '$' :: t) hc2,
              dropWhile_ne_dollar_stop cs t hcs2, takeWhile_ne_dollar_stop cs t hcs2]
            rw [← ht, ih n (acc ++ c :: cs) false hwrest hrest]
            simp [renderSegs, renderSeg, List.append_assoc]
      | esc =>
        simp only [wfSegs] at hwf
        have hflat : flattenSegs (TemplateSeg.esc :: rest) =
            '$' :: '$' :: flattenSegs rest := by
          simp [flattenSegs, flattenSeg]
        rw [hflat, parseF]
        simp only [matchEscape_escape (flattenSegs rest)]
        rw [ih n (acc ++ ['$']) false hwf hrest]
        simp [renderSegs, renderSeg, List.append_assoc]
      | subVar nm braced v =>
        simp only [wfSegs] at hwf
        obtain ⟨hvalid, hwrest⟩ := hwf
        simp only [SegHyp] at hhyp
        rcases nm with _ | ⟨c, cs⟩
        · simp [validNameB] at hvalid
        · have hcc := hvalid
          rw [validNameB, Bool.and_eq_true] at hvalid
          obtain ⟨hc, hcsall⟩ := hvalid
          have hcs := List.all_eq_true.mp hcsall
          have hg : ¬ (varPlainForm (c :: cs) = raw ∨ varBraceForm (c :: cs) = raw) := by
            intro hgg
            apply hnot
            left
            refine ⟨c :: cs, hcc, ?_⟩
            rcases hgg with h1 | h1
            · exact Or.inl h1.symm
            · exact Or.inr h1.symm
          cases braced with
          | false =>
            have hsuf := flattenSegs_head_nonword rest hwrest
            have hflat : flattenSegs (TemplateSeg.subVar (c :: cs) false v :: rest) =
                '$' :: c :: (cs ++ flattenSegs rest) := by
              simp [flattenSegs, flattenSeg, varPlainForm]
            rw [hflat, parseF]
            simp only [matchEscape_nameStart (cs ++ flattenSegs rest) hc,
              matchFunction_plain_none (cs ++ flattenSegs rest) hc,
              matchVariable_bare_suf hc hcs hsuf,
              get_mapping_variable, hhyp]
            rw [if_neg hg, ih n (acc ++ pyStr v) true hwrest hrest]
            simp [renderSegs, renderSeg, List.append_assoc]
          | true =>
            have hflat : flattenSegs (TemplateSeg.subVar (c :: cs) true v :: rest) =
                '$' :: '\x7b' :: c :: (cs ++ '\x7d' :: flattenSegs rest) := by
              simp [flattenSegs, flattenSeg, varBraceForm]
            rw [hflat, parseF]
            simp only [matchEscape_lbrace, matchFunction_brace_none_suf hc hcs,
              matchVariable_brace_suf hc hcs, get_mapping_variable, hhyp]
            rw [if_neg hg, ih n (acc ++ pyStr v) false hwrest hrest]
            simp [renderSegs, renderSeg, List.append_assoc]
      | subFunc fn ps v =>
        simp only [wfSegs] at hwf
        obtain ⟨hvalid, hpall, hwrest⟩ := hwf
        simp only [SegHyp] at hhyp
        obtain ⟨f, meta, pargs, pkwargs, hgm, hpp, hargs, hkw, hcall⟩ := hhyp
        rcases fn with _ | ⟨c, cs⟩
        · simp [validNameB] at hvalid
        · have hcc := hvalid
          rw [validNameB, Bool.and_eq_true] at hvalid
          obtain ⟨hc, hcsall⟩ := hvalid
          have hcs := List.all_eq_true.mp hcsall
          have hp := List.all_eq_true.mp hpall
          have hg : ¬ funcRawString (c :: cs) ps = raw := by
            intro hgg
            exact hnot (Or.inr ⟨c :: cs, ps, hcc, hpall, hgg.symm⟩)
          have hflat : flattenSegs (TemplateSeg.subFunc (c :: cs) ps v :: rest) =
              '$' :: '\x7b' :: c ::
                (cs ++ '(' :: (ps ++ ')' :: '\x7d' :: flattenSegs rest)) := by
            simp [flattenSegs, flattenSeg, funcRawString]
          rw [hflat, parseF]
          simp only [matchEscape_lbrace, matchFunction_form_suf hc hcs hp,
            hgm, hpp, hargs, hkw, hcall]
          rw [if_neg hg, ih n (acc ++ pyStr v) false hwrest hrest]
          simp [renderSegs, renderSeg, List.append_assoc]

/-- parse_string renders a mixed template as a string by in-order
concatenation: a dollar-free literal prefix, then each segment of a
well-formed decomposition, with substitutions stringified. -/
theorem parse_string_segments (vm : VarsMap) (fm : FuncsMap) (ext : Externals)
    (fuel : Nat) (pre : List Char) (segs : List TemplateSeg)
    (hpre : '$' ∉ pre) (hnl : noLitHead segs = true) (hwf : wfSegs false segs)
    (hnot : ¬ isSingleTemplate (pre ++ flattenSegs segs))
    (hspec : SegsSpec vm fm ext fuel segs) :
    parse_string (fuel + 1) (pre ++ flattenSegs segs) vm fm ext =
      .ok (.vStr (pre ++ renderSegs segs)) := by
  cases segs with
  | nil =>
    unfold parse_string
    rw [parseF]
    have hmem : '$' ∉ pre ++ flattenSegs ([] : List TemplateSeg) := by
      simpa [flattenSegs] using hpre
    rw [if_neg hmem]
    simp [flattenSegs, renderSegs]
  | cons seg rest =>
    obtain ⟨t, ht⟩ := flattenSegs_head_dollar seg rest hnl
    unfold parse_string
    rw [parseF]
    have hmem : '$' ∈ pre ++ flattenSegs (seg :: rest) := by
      rw [ht]
      exact List.mem_append_right _ (List.mem_cons_self _ _)
    rw [if_pos hmem]
    have hdw : (pre ++ flattenSegs (seg :: rest)).dropWhile (· ≠ '$') =
        flattenSegs (seg :: rest) := by
      rw [ht]
      exact dropWhile_ne_dollar_stop pre t hpre
    have htw : (pre ++ flattenSegs (seg :: rest)).takeWhile (· ≠ '$') = pre := by
      rw [ht]
      exact takeWhile_ne_dollar_stop pre t hpre
    rw [hdw, htw]
    exact ploop_segs vm fm ext (pre ++ flattenSegs (seg :: rest)) hnot
      (seg :: rest) fuel pre false hwf hspec

/-- C2: a raw string that is exactly one variable reference (bare or
braced) resolves to the looked-up value's native type; a raw string that is
exactly one function call resolves to the call's native result; conversely
any resolution result that is not a string can only arise from a raw string
that is exactly one such whole-string template; and a raw string mixing
literal text with substitutions resolves to the string obtained by
concatenating, in order, the literal runs with the stringified substitution
results (the dollar-dollar escape rendering as a single dollar). -/
theorem claim_C2 :
    (∀ (fuel : Nat) (name : List Char) (vm : VarsMap) (fm : FuncsMap)
        (ext : Externals) (v : PyVal),
      validNameB name = true → lookupVar vm name = some v →
      parse_string (fuel + 2) (varPlainForm name) vm fm ext = .ok v ∧
      parse_string (fuel + 2) (varBraceForm name) vm fm ext = .ok v) ∧
    (∀ (fuel : Nat) (fname params : List Char) (vm : VarsMap) (fm : FuncsMap)
        (ext : Externals) (f : PyFunc) (meta : FuncMeta) (pargs pkwargs v : PyVal),
      validNameB fname = true → params.all isParamChar = true →
      get_mapping_function fname fm ext = .ok f →
      parse_function_params params = .ok meta →
      parseF fuel (.plist (listToPyList meta.args)) vm fm ext = .ok pargs →
      parseF fuel (.ppairs (strPairsToPyPairs meta.kwargs) .nil) vm fm ext = .ok pkwargs →
      callFunc f pargs pkwargs = .ok v →
      parse_string (fuel + 2) (funcRawString fname params) vm fm ext = .ok v) ∧
    (∀ (fuel : Nat) (raw : List Char) (vm : VarsMap) (fm : FuncsMap)
        (ext : Externals) (v : PyVal),
      parse_string fuel raw vm fm ext = .ok v → isStrVal v = false →
      isSingleTemplate raw) ∧
    (∀ (fuel : Nat) (pre : List Char) (segs : List TemplateSeg) (vm : VarsMap)
        (fm : FuncsMap) (ext : Externals),
      '$' ∉ pre → noLitHead segs = true → wfSegs false segs →
      ¬ isSingleTemplate (pre ++ flattenSegs segs) →
      SegsSpec vm fm ext fuel segs →
      parse_string (fuel + 1) (pre ++ flattenSegs segs) vm fm ext =
        .ok (.vStr (pre ++ renderSegs segs))) := by
  refine ⟨?_, ?_, ?_, ?_⟩
  · intro fuel name vm fm ext v hvalid hlookup
    rcases name with _ | ⟨c, cs⟩
    · simp [validNameB] at hvalid
    · rw [validNameB, Bool.and_eq_true] at hvalid
      obtain ⟨hc, hcsall⟩ := hvalid
      have hcs : ∀ x ∈ cs, isWordChar x = true := List.all_eq_true.mp hcsall
      exact ⟨parse_string_var_plain fuel vm fm ext v hc hcs hlookup,
             parse_string_var_brace fuel vm fm ext v hc hcs hlookup⟩
  · intro fuel fname params vm fm ext f meta pargs pkwargs v hvalid hpch hgm hpp hargs hkw hcall
    rcases fname with _ | ⟨c, cs⟩
    · simp [validNameB] at hvalid
    · rw [validNameB, Bool.and_eq_true] at hvalid
      obtain ⟨hc, hcsall⟩ := hvalid
      have hcs : ∀ x ∈ cs, isWordChar x = true := List.all_eq_true.mp hcsall
      have hp : ∀ x ∈ params, isParamChar x = true := List.all_eq_true.mp hpch
      exact parse_string_func_exact fuel vm fm ext f meta pargs pkwargs v
        hc hcs hp hgm hpp hargs hkw hcall
  · exact fun fuel raw vm fm ext v h hv =>
      parse_string_nonstring_single vm fm ext fuel raw v h hv
  · exact fun fuel pre segs vm fm ext hpre hnl hwf hnot hspec =>
      parse_string_segments vm fm ext fuel pre segs hpre hnl hwf hnot hspec

/-- Witness for C2: dollar-n with n bound to 3 resolves to the native
integer 3; the spec's whole-string function-call example add_one(dollar-n)
with n bound to 3 resolves to the native integer 4; and the mixed string
val=add_one(dollar-n) in braces resolves to the concatenated string val=4
via the segment-decomposition conjunct. -/
theorem claim_C2_witness :
    parse_string 5 (varPlainForm ("n".data)) [(("n".data), .vInt 3)] [] emptyExternals =
      .ok (.vInt 3) ∧
    parse_string 11 (funcRawString ("add_one".data) ("$n".data))
        [(("n".data), .vInt 3)] [(("add_one".data), addOneF)] emptyExternals =
      .ok (.vInt 4) ∧
    parse_string 11 ("val=$\x7badd_one($n)\x7d".data) [(("n".data), .vInt 3)]
      [(("add_one".data), addOneF)] emptyExternals = .ok (.vStr ("val=4".data)) := by
  refine ⟨(claim_C2.1 3 ("n".data) [(("n".data), .vInt 3)] [] emptyExternals (.vInt 3)
      (by decide) rfl).1,
    claim_C2.2.1 9 ("add_one".data) ("$n".data) [(("n".data), .vInt 3)]
      [(("add_one".data), addOneF)] emptyExternals addOneF
      ⟨[.vStr ("$n".data)], []⟩ (.vList (.cons (.vInt 3) .nil)) (.vDict .nil) (.vInt 4)
      (by decide) (by decide) rfl rfl rfl rfl rfl, ?_⟩
  have h := claim_C2.2.2.2 (9 + 1) ("val=".data)
      [TemplateSeg.subFunc ("add_one".data) ("$n".data) (.vInt 4)]
      [(("n".data), .vInt 3)] [(("add_one".data), addOneF)] emptyExternals
      (by decide) rfl ⟨by decide, by decide, trivial⟩
      (not_singleTemplate_of_head _ (by decide))
      ⟨⟨addOneF, ⟨[.vStr ("$n".data)], []⟩, .vList (.cons (.vInt 3) .nil), .vDict .nil,
        rfl, rfl, rfl, rfl, rfl⟩, trivial⟩
  exact h

example : parse_string 5 ("$$x".data) [] [] emptyExternals = .ok (.vStr ("$x".data)) := by rfl

example :
    parse_string 20 ("val=$\x7badd_one($n)\x7d".data) [(("n".data), .vInt 3)]
      [(("add_one".data), addOneF)] emptyExternals = .ok (.vStr ("val=4".data)) := by rfl

example :
    parse_variables_mapping 5 9 [(("a".data), .vStr ("$b".data)), (("b".data), .vStr ("1".data))]
      [] emptyExternals =
    .ok [(("b".data), .vStr ("1".data)), (("a".data), .vStr ("1".data))] := by rfl
